import Mathlib

/-!
Verification development for the dompile static-site builder
(include resolution and incremental build engine).

JavaScript strings are modelled as `List Char` (`Str`).  The file systems the
build reads are modelled as finite association lists from absolute path to
file content.  Node's `path` module (posix flavour) is embedded below; the
process working directory, which `path.resolve` consults only when every
argument is relative, is modelled as `"/"`.
-/

namespace Dompile

/-- JavaScript strings, modelled as lists of characters. -/
abbrev Str := List Char

/-- Literal helper: the character list of a Lean string literal. -/
def str (s : String) : Str := s.data

/-! ## Node `path` module (posix) -/

/-- Split a string on `'/'` (used to enumerate path segments).
`splitSlash` never returns `[]`; splitting a slash-free string gives a
single segment. -/
def splitSlash : Str → List Str
  | [] => [[]]
  | c :: rest =>
    match splitSlash rest with
    | [] => [[c]]
    | s :: ss => if c = '/' then [] :: s :: ss else (c :: s) :: ss

/-- One step of Node's `normalizeString` for an absolute path, on a reversed
segment stack: empty and `"."` segments are dropped, `".."` pops the stack
(or is dropped at the root), anything else is pushed. -/
def normAcc : List Str → List Str → List Str
  | acc, [] => acc.reverse
  | acc, seg :: rest =>
    if seg = [] ∨ seg = str "." then normAcc acc rest
    else if seg = str ".." then normAcc acc.tail rest
    else normAcc (seg :: acc) rest

/-- Canonical segments of an absolute path string. -/
def normSegs (cs : Str) : List Str := normAcc [] (splitSlash cs)

/-- Join segments with `'/'`. -/
def interSlash : List Str → Str
  | [] => []
  | [s] => s
  | s :: rest => s ++ '/' :: interSlash rest

/-- Render canonical segments back to an absolute path string:
`"/"` followed by the segments joined with `"/"`. -/
def renderAbs (segs : List Str) : Str := '/' :: interSlash segs

/-- Node `path.resolve`, right-to-left accumulation phase: starting from the
last argument, prepend earlier arguments (empty ones are skipped) until an
absolute one is met; fall back to the working directory (modelled `"/"`). -/
def joinRight : List Str → Str
  | [] => str "/"
  | p :: rest =>
    if p = [] then joinRight rest
    else if p.head? = some '/' then p
    else joinRight rest ++ '/' :: p

/-- Node `path.resolve(...args)` (posix): join right-to-left, then normalize
to a canonical absolute path. -/
def nodeResolve (args : List Str) : Str := renderAbs (normSegs (joinRight args.reverse))

/-- Canonical segment list of `path.resolve(p)`. -/
def canonSegs (p : Str) : List Str := normSegs (joinRight [p])

/-- `path.resolve(p)` with a single argument. -/
def resolve1 (p : Str) : Str := nodeResolve [p]

/-- `path.resolve(base, p)` with two arguments. -/
def resolve2 (base p : Str) : Str := nodeResolve [base, p]

/-- Node `path.dirname` (posix): drop trailing slashes, then the final
segment; mirrors Node's index scan (which never inspects index 0, and
special-cases a `"//"`-rooted result). -/
def dirname (cs : Str) : Str :=
  if cs = [] then str "."
  else
    let hasRoot := cs.head? = some '/'
    let r2 := (cs.reverse.dropWhile (· = '/')).dropWhile (· ≠ '/')
    let res := r2.tail.reverse
    if res = [] then (if hasRoot then str "/" else str ".")
    else if hasRoot ∧ res = ['/'] then str "//"
    else res

/-! ## Path resolver (`src/utils/path-resolver.js`) -/

/-- `isPathWithinDirectory(filePath, directory)`: resolve both and test
`resolvedFilePath.startsWith(resolvedDirectory + path.sep) ||
resolvedFilePath === resolvedDirectory`. -/
def isPathWithinDirectory (filePath directory : Str) : Bool :=
  let rf := resolve1 filePath
  let rd := resolve1 directory
  (rd ++ str "/").isPrefixOf rf || rf = rd

/-- Errors surfaced by path resolution and include processing. -/
inductive IncludeError where
  /-- `Error('Include path must be a non-empty string')` -/
  | invalidPath : IncludeError
  /-- ``Error(`Invalid include type: ...`)`` -/
  | invalidType (type : Str) : IncludeError
  /-- `PathTraversalError(attemptedPath, sourceRoot)` -/
  | pathTraversal (attemptedPath sourceRoot : Str) : IncludeError
  /-- `IncludeNotFoundError(includePath, parentFile)` -/
  | includeNotFound (includePath parentFile : Str) : IncludeError
  /-- `CircularDependencyError(filePath, chain)` -/
  | circular (filePath : Str) (chain : List Str) : IncludeError
  /-- ``Error(`Maximum include depth (10) exceeded in ...`)`` -/
  | maxDepth (filePath : Str) : IncludeError
  /-- Fuel-exhaustion artifact of the shallow embedding; proved unreachable
  for the fuel the embedding supplies. -/
  | fuelOut : IncludeError
  deriving DecidableEq, Repr

/-- The raw resolution computed by `resolveIncludePath` before the
containment check: `file` resolves against the including file's directory,
`virtual` strips leading slashes, collapses repeated slashes, and resolves
against the source root. -/
def rawResolve (type includePath currentFilePath sourceRoot : Str) : Str :=
  if type = str "file" then
    resolve2 (dirname currentFilePath) includePath
  else
    resolve2 sourceRoot (collapseSlashes (includePath.dropWhile (· = '/')))
where
  /-- `replace(/\/+/g, '/')`: collapse every run of slashes to one. -/
  collapseSlashes (cs : Str) : Str := go false cs
  go : Bool → Str → Str
    | _, [] => []
    | prevSlash, c :: rest =>
      if c = '/' then
        (if prevSlash then go true rest else '/' :: go true rest)
      else c :: go false rest

/-- `resolveIncludePath(type, includePath, currentFilePath, sourceRoot)`
from `src/utils/path-resolver.js`. -/
def resolveIncludePath (type includePath currentFilePath sourceRoot : Str) :
    Except IncludeError Str :=
  if includePath = [] then .error .invalidPath
  else if type = str "file" ∨ type = str "virtual" then
    let resolvedPath := rawResolve type includePath currentFilePath sourceRoot
    if isPathWithinDirectory resolvedPath sourceRoot then .ok resolvedPath
    else .error (.pathTraversal includePath sourceRoot)
  else .error (.invalidType type)

/-! ## Canonical-path lemmas -/

/-- A well-formed canonical path segment: nonempty and slash-free. -/
def SegOK (s : Str) : Prop := s ≠ [] ∧ '/' ∉ s

/-- All segments of a list are well-formed. -/
def SegsOK (l : List Str) : Prop := ∀ s ∈ l, SegOK s

theorem splitSlash_ne_nil (cs : Str) : splitSlash cs ≠ [] := by
  cases cs with
  | nil => simp [splitSlash]
  | cons c rest =>
    simp only [splitSlash]
    cases hsr : splitSlash rest with
    | nil => simp
    | cons s ss => by_cases hc : c = '/' <;> simp [hc]

theorem splitSlash_slash_free (cs : Str) : ∀ s ∈ splitSlash cs, '/' ∉ s := by
  induction cs with
  | nil => simp [splitSlash]
  | cons c rest ih =>
    simp only [splitSlash]
    cases hsr : splitSlash rest with
    | nil => exact absurd hsr (splitSlash_ne_nil rest)
    | cons s ss =>
      rw [hsr] at ih
      by_cases hc : c = '/'
      · simp only [if_pos hc]
        intro t ht
        simp only [List.mem_cons] at ht
        rcases ht with rfl | rfl | ht
        · simp
        · exact ih t (by simp)
        · exact ih t (by simp [ht])
      · simp only [if_neg hc]
        intro t ht
        simp only [List.mem_cons] at ht
        rcases ht with rfl | ht
        · intro hmem
          simp only [List.mem_cons] at hmem
          rcases hmem with h1 | h1
          · exact hc h1.symm
          · exact ih s (by simp) h1
        · exact ih t (by simp [ht])

theorem normAcc_ok {acc : List Str} {l : List Str} (hacc : SegsOK acc)
    (hl : ∀ s ∈ l, '/' ∉ s) : SegsOK (normAcc acc l) := by
  induction l generalizing acc with
  | nil =>
    intro s hs
    exact hacc s (by simpa [normAcc] using hs)
  | cons seg rest ih =>
    simp only [normAcc]
    split
    · exact ih hacc (fun s hs => hl s (by simp [hs]))
    · split
      · refine ih (fun s hs => hacc s ?_) (fun s hs => hl s (by simp [hs]))
        exact List.mem_of_mem_tail hs
      · refine ih (fun s hs => ?_) (fun s hs => hl s (by simp [hs]))
        rcases List.mem_cons.mp hs with h1 | h1
        · subst h1
          refine ⟨?_, hl s (by simp)⟩
          intro hnil
          rename_i hne _
          exact hne (Or.inl hnil)
        · exact hacc s h1

theorem canonSegs_ok (p : Str) : SegsOK (canonSegs p) :=
  normAcc_ok (fun s hs => absurd hs (List.not_mem_nil s))
    (splitSlash_slash_free _)

theorem resolve1_eq (p : Str) : resolve1 p = renderAbs (canonSegs p) := by
  simp [resolve1, nodeResolve, canonSegs, normSegs]

/-- Two slash-free segments followed by a slash agree as string prefixes
exactly when the segments agree. -/
theorem seg_slash_pre {a b : Str} {xs ys : List Char}
    (ha : '/' ∉ a) (hb : '/' ∉ b) :
    a ++ '/' :: xs <+: b ++ '/' :: ys ↔ a = b ∧ xs <+: ys := by
  induction a generalizing b with
  | nil =>
    cases b with
    | nil => simp [List.cons_prefix_cons]
    | cons d b2 =>
      simp only [List.nil_append, List.cons_append, List.cons_prefix_cons]
      constructor
      · rintro ⟨h1, -⟩
        have : '/' ∈ d :: b2 := by rw [h1]; exact List.mem_cons_self _ _
        exact absurd this hb
      · rintro ⟨h1, -⟩
        simp at h1
  | cons c a2 ih =>
    cases b with
    | nil =>
      simp only [List.cons_append, List.nil_append, List.cons_prefix_cons]
      constructor
      · rintro ⟨h1, -⟩
        have : '/' ∈ c :: a2 := by rw [← h1]; exact List.mem_cons_self _ _
        exact absurd this ha
      · rintro ⟨h1, -⟩
        simp at h1
    | cons d b2 =>
      simp only [List.cons_append, List.cons_prefix_cons, List.cons.injEq]
      rw [ih (fun h => ha (List.mem_cons_of_mem c h))
            (fun h => hb (List.mem_cons_of_mem d h))]
      tauto

/-- Two slash-free segments followed by a slash agree as strings exactly when
both parts agree. -/
theorem seg_slash_inj {a b : Str} {xs ys : List Char}
    (ha : '/' ∉ a) (hb : '/' ∉ b) :
    a ++ '/' :: xs = b ++ '/' :: ys ↔ a = b ∧ xs = ys := by
  induction a generalizing b with
  | nil =>
    cases b with
    | nil => simp
    | cons d b2 =>
      simp only [List.nil_append, List.cons_append, List.cons.injEq]
      constructor
      · rintro ⟨h1, -⟩
        have : '/' ∈ d :: b2 := by rw [h1]; exact List.mem_cons_self _ _
        exact absurd this hb
      · rintro ⟨h1, -⟩
        simp at h1
  | cons c a2 ih =>
    cases b with
    | nil =>
      simp only [List.cons_append, List.nil_append, List.cons.injEq]
      constructor
      · rintro ⟨h1, -⟩
        have : '/' ∈ c :: a2 := by rw [← h1]; exact List.mem_cons_self _ _
        exact absurd this ha
      · rintro ⟨h1, -⟩
        simp at h1
    | cons d b2 =>
      simp only [List.cons_append, List.cons.injEq]
      rw [ih (fun h => ha (List.mem_cons_of_mem c h))
            (fun h => hb (List.mem_cons_of_mem d h))]
      tauto

theorem interSlash_cons {a : Str} {l : List Str} (hl : l ≠ []) :
    interSlash (a :: l) = a ++ '/' :: interSlash l := by
  cases l with
  | nil => exact absurd rfl hl
  | cons b l2 => rfl

/-- Joined non-root segments followed by a slash are a string prefix of
joined segments exactly on boundary-aware proper list prefixes. -/
theorem interSlash_pre : ∀ {l₂ l₁ : List Str}, SegsOK l₁ → SegsOK l₂ → l₂ ≠ [] →
    (interSlash l₂ ++ ['/'] <+: interSlash l₁ ↔ l₂ <+: l₁ ∧ l₂ ≠ l₁) := by
  intro l₂
  induction l₂ with
  | nil => intro l₁ _ _ h; exact absurd rfl h
  | cons a l₂' ih =>
    intro l₁ h1 h2 _
    have haOK : SegOK a := h2 a (List.mem_cons_self _ _)
    cases l₂' with
    | nil =>
      cases l₁ with
      | nil =>
        constructor
        · intro h
          rw [show interSlash ([] : List Str) = [] from rfl, List.prefix_nil] at h
          simp at h
        · rintro ⟨hp, -⟩
          simp [List.prefix_nil] at hp
      | cons b l₁' =>
        have hbOK : SegOK b := h1 b (List.mem_cons_self _ _)
        cases l₁' with
        | nil =>
          simp only [interSlash]
          constructor
          · intro h
            exact absurd
              (h.subset (List.mem_append_right a (List.mem_cons_self _ _))) hbOK.2
          · rintro ⟨hp, hne⟩
            rw [List.cons_prefix_cons] at hp
            exact absurd (by rw [hp.1]) hne
        | cons c l₁'' =>
          rw [show interSlash [a] = a from rfl,
            interSlash_cons (l := c :: l₁'') (by simp),
            show a ++ ['/'] = a ++ '/' :: ([] : Str) from rfl,
            seg_slash_pre haOK.2 hbOK.2]
          constructor
          · rintro ⟨rfl, -⟩
            exact ⟨List.cons_prefix_cons.mpr ⟨rfl, List.nil_prefix⟩, by simp⟩
          · rintro ⟨hp, -⟩
            exact ⟨(List.cons_prefix_cons.mp hp).1, List.nil_prefix⟩
    | cons a2 l₂'' =>
      cases l₁ with
      | nil =>
        constructor
        · intro h
          rw [show interSlash ([] : List Str) = [] from rfl, List.prefix_nil,
            interSlash_cons (l := a2 :: l₂'') (by simp)] at h
          simp at h
        · rintro ⟨hp, -⟩
          simp [List.prefix_nil] at hp
      | cons b l₁' =>
        have hbOK : SegOK b := h1 b (List.mem_cons_self _ _)
        cases l₁' with
        | nil =>
          rw [interSlash_cons (l := a2 :: l₂'') (by simp),
            show interSlash [b] = b from rfl]
          constructor
          · intro h
            have hm : '/' ∈ b := h.subset (by simp)
            exact absurd hm hbOK.2
          · rintro ⟨hp, -⟩
            rw [List.cons_prefix_cons] at hp
            have := hp.2
            simp [List.prefix_nil] at this
        | cons c l₁'' =>
          rw [interSlash_cons (l := a2 :: l₂'') (by simp),
            interSlash_cons (l := c :: l₁'') (by simp),
            List.append_assoc, List.cons_append, seg_slash_pre haOK.2 hbOK.2,
            ih (fun s hs => h1 s (List.mem_cons_of_mem b hs))
              (fun s hs => h2 s (List.mem_cons_of_mem a hs)) (by simp)]
          constructor
          · rintro ⟨rfl, hp, hne⟩
            refine ⟨List.cons_prefix_cons.mpr ⟨rfl, hp⟩, fun heq => hne ?_⟩
            exact (List.cons.inj heq).2
          · rintro ⟨hp, hne⟩
            obtain ⟨hab, hp2⟩ := List.cons_prefix_cons.mp hp
            subst hab
            exact ⟨rfl, hp2, fun h => hne (by rw [h])⟩

/-- Joining well-formed segments is injective. -/
theorem interSlash_inj : ∀ {l₁ l₂ : List Str}, SegsOK l₁ → SegsOK l₂ →
    interSlash l₁ = interSlash l₂ → l₁ = l₂ := by
  intro l₁
  induction l₁ with
  | nil =>
    intro l₂ _ h2 h
    cases l₂ with
    | nil => rfl
    | cons b l₂' =>
      exfalso
      cases l₂' with
      | nil =>
        simp only [interSlash] at h
        exact (h2 b (List.mem_cons_self _ _)).1 h.symm
      | cons c l₂'' =>
        rw [interSlash_cons (l := c :: l₂'') (by simp)] at h
        simp only [interSlash] at h
        rcases b with - | ⟨d, b2⟩ <;> simp at h
  | cons a l₁' ih =>
    intro l₂ h1 h2 h
    have haOK : SegOK a := h1 a (List.mem_cons_self _ _)
    cases l₂ with
    | nil =>
      exfalso
      cases l₁' with
      | nil =>
        simp only [interSlash] at h
        exact haOK.1 h
      | cons c l₁'' =>
        rw [interSlash_cons (l := c :: l₁'') (by simp)] at h
        simp only [interSlash] at h
        rcases a with - | ⟨d, a2⟩ <;> simp at h
    | cons b l₂' =>
      have hbOK : SegOK b := h2 b (List.mem_cons_self _ _)
      cases l₁' with
      | nil =>
        cases l₂' with
        | nil =>
          simp only [interSlash] at h
          rw [h]
        | cons c l₂'' =>
          exfalso
          rw [interSlash_cons (l := c :: l₂'') (by simp)] at h
          simp only [interSlash] at h
          have hm : '/' ∈ a := by
            rw [h]
            exact List.mem_append_right b (List.mem_cons_self _ _)
          exact haOK.2 hm
      | cons c l₁'' =>
        cases l₂' with
        | nil =>
          exfalso
          rw [interSlash_cons (l := c :: l₁'') (by simp)] at h
          simp only [interSlash] at h
          have hm : '/' ∈ b := by
            rw [← h]
            exact List.mem_append_right a (List.mem_cons_self _ _)
          exact hbOK.2 hm
        | cons d l₂'' =>
          rw [interSlash_cons (l := c :: l₁'') (by simp),
            interSlash_cons (l := d :: l₂'') (by simp),
            seg_slash_inj haOK.2 hbOK.2] at h
          rw [h.1, ih (fun s hs => h1 s (List.mem_cons_of_mem a hs))
            (fun s hs => h2 s (List.mem_cons_of_mem b hs)) h.2]

theorem renderAbs_inj {l₁ l₂ : List Str} (h1 : SegsOK l₁) (h2 : SegsOK l₂) :
    renderAbs l₁ = renderAbs l₂ ↔ l₁ = l₂ := by
  constructor
  · intro h
    simp only [renderAbs, List.cons.injEq, true_and] at h
    exact interSlash_inj h1 h2 h
  · rintro rfl; rfl

/-! ## Claim C1 -/

/-- Modelled from the spec's words (§4.1): the containment check should
accept exactly the paths whose canonical form equals the canonical source
root, or extends the canonical source root by at least one further path
segment (a boundary-aware proper directory prefix, immune to sibling
directories that share a string prefix). -/
def specWithin (directory filePath : Str) : Prop :=
  canonSegs filePath = canonSegs directory ∨
    (canonSegs directory <+: canonSegs filePath ∧ canonSegs directory ≠ canonSegs filePath)

/-- The containment check agrees with the spec's boundary-aware
characterization whenever the source root does not canonically resolve to
the filesystem root. -/
theorem within_iff_specWithin (p root : Str) (hroot : canonSegs root ≠ []) :
    isPathWithinDirectory p root = true ↔ specWithin root p := by
  unfold isPathWithinDirectory specWithin
  rw [resolve1_eq, resolve1_eq]
  simp only [Bool.or_eq_true, List.isPrefixOf_iff_prefix, decide_eq_true_eq]
  rw [renderAbs_inj (canonSegs_ok p) (canonSegs_ok root)]
  have hren : renderAbs (canonSegs root) ++ str "/" =
      '/' :: (interSlash (canonSegs root) ++ ['/']) := by
    simp [renderAbs, str]
  rw [hren]
  simp only [renderAbs, List.cons_prefix_cons, true_and]
  rw [interSlash_pre (canonSegs_ok p) (canonSegs_ok root) hroot]
  tauto

/-- C1 counterexample: with the source root configured as the filesystem
root `"/"`, the raw path `"a"` of a virtual include canonically resolves to
`"/a"`, which lies inside the root (the root is a boundary-aware proper
directory prefix of it), yet `isPathWithinDirectory` rejects it (it would
demand the prefix `"//"`) and `resolveIncludePath` throws `PathTraversal`.
This refutes both the "succeeds for every raw path that resolves inside the
root" part and the "accepts exactly" characterization of the containment
check. -/
theorem resolveIncludePath_root_counterexample :
    isPathWithinDirectory (str "/a") (str "/") = false ∧
    specWithin (str "/") (str "/a") ∧
    resolveIncludePath (str "virtual") (str "a") (str "/index.html") (str "/") =
      .error (.pathTraversal (str "a") (str "/")) :=
  ⟨by decide, Or.inr ⟨⟨canonSegs (str "/a"), by decide⟩, by decide⟩, by rfl⟩

/-- C1 (amended): for both recognized directive kinds and a nonempty raw
path, `resolveIncludePath` returns the canonically resolved absolute path
when it passes the containment check and throws `PathTraversal` otherwise
(raw `../`, encoded, or backslash substrings are treated as literal
characters by the resolution); and — provided the configured source root
does not itself canonically resolve to the filesystem root `"/"` — the
containment check accepts exactly the paths that canonically equal the
source root or have it as a boundary-aware proper directory prefix, so it
is not fooled by sibling directories sharing a string prefix. -/
theorem resolveIncludePath_secure (type includePath currentFilePath sourceRoot p : Str)
    (htype : type = str "file" ∨ type = str "virtual")
    (hne : includePath ≠ [])
    (hroot : canonSegs sourceRoot ≠ []) :
    (resolveIncludePath type includePath currentFilePath sourceRoot =
      if isPathWithinDirectory
          (rawResolve type includePath currentFilePath sourceRoot) sourceRoot
      then .ok (rawResolve type includePath currentFilePath sourceRoot)
      else .error (.pathTraversal includePath sourceRoot)) ∧
    (isPathWithinDirectory p sourceRoot = true ↔ specWithin sourceRoot p) := by
  constructor
  · unfold resolveIncludePath
    rw [if_neg hne, if_pos htype]
  · exact within_iff_specWithin p sourceRoot hroot

/-- Witness for `resolveIncludePath_secure` at a concrete input: a `file`
include `"../partials/nav.html"` from `"/site/pages/about.html"` under root
`"/site"` resolves to `"/site/partials/nav.html"` and is accepted. -/
theorem resolveIncludePath_secure_witness :
    ((str "file" = str "file" ∨ str "file" = str "virtual") ∧
      str "../partials/nav.html" ≠ [] ∧ canonSegs (str "/site") ≠ []) ∧
    ((resolveIncludePath (str "file") (str "../partials/nav.html")
        (str "/site/pages/about.html") (str "/site") =
      if isPathWithinDirectory
          (rawResolve (str "file") (str "../partials/nav.html")
            (str "/site/pages/about.html") (str "/site")) (str "/site")
      then .ok (rawResolve (str "file") (str "../partials/nav.html")
            (str "/site/pages/about.html") (str "/site"))
      else .error (.pathTraversal (str "../partials/nav.html") (str "/site"))) ∧
    (isPathWithinDirectory (str "/site/partials/nav.html") (str "/site") = true ↔
      specWithin (str "/site") (str "/site/partials/nav.html"))) :=
  ⟨⟨Or.inl rfl, by decide, by decide⟩,
    resolveIncludePath_secure (str "file") (str "../partials/nav.html")
      (str "/site/pages/about.html") (str "/site") (str "/site/partials/nav.html")
      (Or.inl rfl) (by decide) (by decide)⟩

/-! ## Include directive matching (`src/core/include-processor.js`)

The directive regex is
`<!--#include\s+(virtual|file)="([^"]+)"\s*-->` with flags `gi`.  Its
matching is deterministic (no backtracking is observable: `\s+` is followed
by a letter, `[^"]+` cannot cross the closing quote, `\s*` is followed by
`-`), so it is embedded as a left-to-right scanner.  `\s` is modelled by the
ASCII whitespace characters. -/

/-- JavaScript `\s` (ASCII part). -/
def isWsChar (c : Char) : Bool :=
  c = ' ' ∨ c = '\t' ∨ c = '\n' ∨ c = '\r' ∨ c = '\x0b' ∨ c = '\x0c'

/-- Strip a literal case-insensitively; returns the remaining input. -/
def stripCI : Str → Str → Option Str
  | [], cs => some cs
  | _ :: _, [] => none
  | l :: ls, c :: cs => if c.toLower = l.toLower then stripCI ls cs else none

/-- Try to match the include-directive regex at the start of `cs`.  On
success returns `(fullMatch, typeText, pathText)` where `typeText` and
`pathText` keep the original character case (capture groups 1 and 2). -/
def matchAt (cs : Str) : Option (Str × Str × Str) :=
  match stripCI (str "<!--#include") cs with
  | none => none
  | some r1 =>
    match r1 with
    | [] => none
    | c :: r2 =>
      if isWsChar c then
        let r3 := r2.dropWhile isWsChar
        let t? : Option (Str × Str) :=
          match stripCI (str "virtual") r3 with
          | some r4 => some (r3.take 7, r4)
          | none =>
            match stripCI (str "file") r3 with
            | some r4 => some (r3.take 4, r4)
            | none => none
        match t? with
        | none => none
        | some (ty, r4) =>
          match r4 with
          | '=' :: '"' :: r5 =>
            let p := r5.takeWhile (· ≠ '"')
            if p = [] then none
            else
              match r5.drop p.length with
              | '"' :: r6 =>
                let r7 := r6.dropWhile isWsChar
                match stripCI (str "-->") r7 with
                | some r8 => some (cs.take (cs.length - r8.length), ty, p)
                | none => none
              | _ => none
          | _ => none
      else none

/-- `String.prototype.matchAll` scan: find successive non-overlapping
matches left to right, resuming after each match.  The fuel argument (one
unit per input position) only makes the recursion structural; `findMatches`
supplies enough fuel since every step consumes at least one character. -/
def findMatchesGas : Nat → Str → List (Str × Str × Str)
  | 0, _ => []
  | _ + 1, [] => []
  | gas + 1, c :: rest =>
    match matchAt (c :: rest) with
    | some (full, ty, p) =>
      (full, ty, p) :: findMatchesGas gas (List.drop (full.length - 1) rest)
    | none => findMatchesGas gas rest

/-- `Array.from(htmlContent.matchAll(INCLUDE_DIRECTIVE_REGEX))` (with the
shared regex's `lastIndex` at its initial value 0). -/
def findMatches (cs : Str) : List (Str × Str × Str) := findMatchesGas cs.length cs

/-! ## JavaScript `String.prototype.replace` with a string pattern -/

/-- Split `s` at the first occurrence of `pat`:
`firstSplit? pat s = some (pre, post)` with `s = pre ++ pat ++ post` at the
leftmost occurrence, or `none` when `pat` does not occur. -/
def firstSplit? (pat : Str) : Str → Option (Str × Str)
  | [] => if pat = [] then some ([], []) else none
  | c :: rest =>
    if pat.isPrefixOf (c :: rest) then some ([], List.drop pat.length (c :: rest))
    else
      match firstSplit? pat rest with
      | some (pre, post) => some (c :: pre, post)
      | none => none

/-- ECMAScript `GetSubstitution` for a string search pattern (no capture
groups): `$$`, `$&`, `$`-backtick, `$`-quote are active; any other `$`
sequence is literal.  The scan carries a flag recording whether the
previous character was a still-unconsumed `$`. -/
def substGo (matched pre post : Str) : Bool → Str → Str
  | false, [] => []
  | true, [] => ['$']
  | false, c :: rest =>
    if c = '$' then substGo matched pre post true rest
    else c :: substGo matched pre post false rest
  | true, c :: rest =>
    if c = '$' then '$' :: substGo matched pre post false rest
    else if c = '&' then matched ++ substGo matched pre post false rest
    else if c = '\x60' then pre ++ substGo matched pre post false rest
    else if c = '\x27' then post ++ substGo matched pre post false rest
    else '$' :: c :: substGo matched pre post false rest

/-- `GetSubstitution` on a whole replacement string. -/
def subst (matched pre post repl : Str) : Str :=
  substGo matched pre post false repl

/-- `s.replace(pat, repl)` with a string pattern: replace the first
occurrence of `pat`, applying `GetSubstitution` to `repl`. -/
def jsReplaceFirst (s pat repl : Str) : Str :=
  match firstSplit? pat s with
  | none => s
  | some (pre, post) => pre ++ subst pat pre post repl ++ post

/-! ## `processIncludes` (current, re-throwing variant) -/

/-- The file system visible to the build: association list from absolute
path to file content.  `readFile` succeeds exactly on listed paths
(a missing path is ENOENT → `IncludeNotFoundError`). -/
abbrev FileSys := List (Str × Str)

/-- `fs.readFile(p, 'utf-8')`. -/
def readFile (fs : FileSys) (p : Str) : Option Str := fs.lookup p

/-- `MAX_INCLUDE_DEPTH` from `src/core/include-processor.js`. -/
def MAX_INCLUDE_DEPTH : Nat := 10

/-- The `for (const match of matches)` loop of `processIncludes`: resolve
the path, read the target, recursively expand it (`recur`, i.e.
`processIncludes` at depth + 1 with the extended visiting chain), and
splice the result over the directive text with `String.replace`.  Any
error is re-thrown. -/
def piLoop (recur : Str → Str → Except IncludeError Str)
    (fs : FileSys) (sourceRoot : Str) (filePath : Str) :
    Str → List (Str × Str × Str) → Except IncludeError Str
  | processedContent, [] => .ok processedContent
  | processedContent, (full, ty, ip) :: ms =>
    match resolveIncludePath ty ip filePath sourceRoot with
    | .error e => .error e
    | .ok resolved =>
      match readFile fs resolved with
      | none => .error (.includeNotFound ip filePath)
      | some includeContent =>
        match recur includeContent resolved with
        | .error e => .error e
        | .ok processedInclude =>
          piLoop recur fs sourceRoot filePath
            (jsReplaceFirst processedContent full processedInclude) ms

/-- The body of `processIncludes`: guard the depth ceiling, detect a
circular chain, collect the directive matches, then process them in source
order.  `gas` only makes the recursion structural; the top-level entry
supplies enough, since every recursive call increments `depth` and the
depth guard fires above `MAX_INCLUDE_DEPTH` (`piGo_fuel_irrel`). -/
def piGo (fs : FileSys) (sourceRoot : Str) :
    Nat → Str → Str → List Str → Nat → Except IncludeError Str
  | gas, content, filePath, visiting, depth =>
    if depth > MAX_INCLUDE_DEPTH then .error (.maxDepth filePath)
    else if filePath ∈ visiting then .error (.circular filePath visiting)
    else
      match findMatches content with
      | [] => .ok content
      | m :: ms =>
        match gas with
        | 0 => .error .fuelOut
        | gas + 1 =>
          piLoop
            (fun includeContent resolved =>
              piGo fs sourceRoot gas includeContent resolved
                (visiting ++ [filePath]) (depth + 1))
            fs sourceRoot filePath content (m :: ms)

/-- Fuel that provably suffices for `piGo` starting at `depth`. -/
def piGoFuel (depth : Nat) : Nat := MAX_INCLUDE_DEPTH + 1 - depth

/-- `processIncludes(htmlContent, filePath, sourceRoot, processedFiles,
depth)` — the current (dompile) variant, which re-throws every directive
error.  The visiting set is modelled as a list in insertion order. -/
def processIncludes (fs : FileSys) (htmlContent filePath sourceRoot : Str)
    (processedFiles : List Str := []) (depth : Nat := 0) :
    Except IncludeError Str :=
  piGo fs sourceRoot (piGoFuel depth) htmlContent filePath processedFiles depth

/-! ## `String.replace` lemmas -/

/-- A `$`-free replacement string passes through `GetSubstitution`
unchanged. -/
theorem subst_no_dollar (matched pre post : Str) :
    ∀ {repl : Str}, '$' ∉ repl → subst matched pre post repl = repl := by
  intro repl
  induction repl with
  | nil => intro _; rfl
  | cons c rest ih =>
    intro h
    have hc : c ≠ '$' := fun hc => h (hc ▸ List.mem_cons_self _ _)
    show (if c = '$' then substGo matched pre post true rest
      else c :: substGo matched pre post false rest) = c :: rest
    rw [if_neg hc]
    exact congrArg (c :: ·) (ih (fun hm => h (List.mem_cons_of_mem c hm)))

/-- When no earlier position of `pre ++ pat ++ post` starts with `pat`,
the first occurrence found is the intended one. -/
theorem firstSplit_at (pat : Str) : ∀ (pre post : Str), pat ≠ [] →
    (∀ i, i < pre.length → pat.isPrefixOf (List.drop i (pre ++ pat ++ post)) = false) →
    firstSplit? pat (pre ++ pat ++ post) = some (pre, post) := by
  intro pre
  induction pre with
  | nil =>
    intro post hne _
    cases pat with
    | nil => exact absurd rfl hne
    | cons a pat2 =>
      have hpref : List.isPrefixOf (a :: pat2) (a :: (pat2 ++ post)) = true := by
        rw [List.isPrefixOf_iff_prefix]
        exact ⟨post, by simp⟩
      show (if List.isPrefixOf (a :: pat2) (a :: (pat2 ++ post)) = true
        then some (([] : Str), List.drop (a :: pat2).length (a :: (pat2 ++ post)))
        else match firstSplit? (a :: pat2) (pat2 ++ post) with
          | some (pre, post) => some (a :: pre, post)
          | none => none) = some ([], post)
      rw [hpref, if_pos rfl,
        show a :: (pat2 ++ post) = (a :: pat2) ++ post from rfl, List.drop_left]
  | cons c pre2 ih =>
    intro post hne hno
    have h0 := hno 0 (by simp)
    rw [List.drop_zero,
      show (c :: pre2) ++ pat ++ post = c :: (pre2 ++ pat ++ post) by simp] at h0
    rw [show (c :: pre2) ++ pat ++ post = c :: (pre2 ++ pat ++ post) by simp]
    show (if List.isPrefixOf pat (c :: (pre2 ++ pat ++ post)) = true
      then some (([] : Str), List.drop pat.length (c :: (pre2 ++ pat ++ post)))
      else match firstSplit? pat (pre2 ++ pat ++ post) with
        | some (pre, post) => some (c :: pre, post)
        | none => none) = some (c :: pre2, post)
    rw [h0]
    simp only [Bool.false_eq_true, if_false]
    rw [ih post hne (fun i hi => by
      have := hno (i + 1) (by simpa using Nat.succ_lt_succ hi)
      simpa using this)]

/-! ## Claim C6 -/

/-- C6 counterexample: splicing is done with `String.replace`, whose string
replacement is subject to `$`-substitution.  A target file whose (expanded)
content is `"$&"` is spliced as the matched directive text itself, so the
directive is not replaced by the target's content: the result keeps the
directive text instead of `A$&C`.  The target alone expands to exactly
`"$&"`, so the corruption happens at the splice. -/
theorem processIncludes_dollar_counterexample :
    processIncludes [(str "/src/b.html", str "$&")]
      (str "A<!--#include file=\"b.html\" -->C") (str "/src/index.html") (str "/src") =
      .ok (str "A<!--#include file=\"b.html\" -->C") ∧
    processIncludes [(str "/src/b.html", str "$&")]
      (str "$&") (str "/src/b.html") (str "/src") = .ok (str "$&") ∧
    str "A<!--#include file=\"b.html\" -->C" ≠ str "A$&C" :=
  ⟨by rfl, by rfl, by decide⟩

/-- C6 (amended): for a document containing exactly one directive
occurrence, whose target resolves inside the source root and is readable,
the directive is replaced by exactly the target's recursively expanded
content and the surrounding text is preserved byte-for-byte — provided the
expanded content contains no `$` character (otherwise `String.replace`
substitution corrupts the splice, see the counterexample) and no earlier
position of the document starts with the directive text. -/
theorem processIncludes_splices_exactly (fs : FileSys)
    (root f pre post full ty ip r c2 out : Str) (V : List Str) (d : Nat)
    (hd : d ≤ MAX_INCLUDE_DEPTH) (hV : f ∉ V)
    (hm : findMatches (pre ++ full ++ post) = [(full, ty, ip)])
    (hfne : full ≠ [])
    (hres : resolveIncludePath ty ip f root = .ok r)
    (hread : readFile fs r = some c2)
    (hrec : processIncludes fs c2 r root (V ++ [f]) (d + 1) = .ok out)
    (hnd : '$' ∉ out)
    (hfirst : ∀ i, i < pre.length →
      full.isPrefixOf (List.drop i (pre ++ full ++ post)) = false) :
    processIncludes fs (pre ++ full ++ post) f root V d = .ok (pre ++ out ++ post) := by
  unfold processIncludes piGo
  rw [if_neg (by omega), if_neg (by simpa using hV), hm]
  have hgas : piGoFuel d = (piGoFuel (d + 1)) + 1 := by
    unfold piGoFuel MAX_INCLUDE_DEPTH
    unfold MAX_INCLUDE_DEPTH at hd
    omega
  rw [hgas]
  show piLoop _ fs root f (pre ++ full ++ post) [(full, ty, ip)] = _
  simp only [piLoop, hres, hread]
  rw [show (piGo fs root (piGoFuel (d + 1)) c2 r (V ++ [f]) (d + 1)) =
      processIncludes fs c2 r root (V ++ [f]) (d + 1) from rfl, hrec]
  simp only [piLoop]
  rw [show jsReplaceFirst (pre ++ full ++ post) full out =
      pre ++ subst full pre post out ++ post from by
    unfold jsReplaceFirst
    rw [firstSplit_at full pre post hfne hfirst]]
  rw [subst_no_dollar full pre post hnd]

/-- Witness for `processIncludes_splices_exactly`: the single directive in
`"A<!--#include file=\"b.html\" -->C"` is replaced by the content `"W"` of
`/src/b.html`, with the surrounding `"A"`/`"C"` intact. -/
theorem processIncludes_splices_exactly_witness :
    (findMatches (str "A" ++ str "<!--#include file=\"b.html\" -->" ++ str "C") =
        [(str "<!--#include file=\"b.html\" -->", str "file", str "b.html")]) ∧
    resolveIncludePath (str "file") (str "b.html") (str "/src/index.html") (str "/src") =
      .ok (str "/src/b.html") ∧
    readFile [(str "/src/b.html", str "W")] (str "/src/b.html") = some (str "W") ∧
    processIncludes [(str "/src/b.html", str "W")] (str "W") (str "/src/b.html")
      (str "/src") ([] ++ [str "/src/index.html"]) (0 + 1) = .ok (str "W") ∧
    processIncludes [(str "/src/b.html", str "W")]
      (str "A" ++ str "<!--#include file=\"b.html\" -->" ++ str "C")
      (str "/src/index.html") (str "/src") [] 0 =
      .ok (str "A" ++ str "W" ++ str "C") :=
  ⟨by decide, by rfl, by rfl, by rfl,
    processIncludes_splices_exactly [(str "/src/b.html", str "W")]
      (str "/src") (str "/src/index.html") (str "A")
      (str "C") (str "<!--#include file=\"b.html\" -->") (str "file") (str "b.html")
      (str "/src/b.html") (str "W") (str "W") [] 0
      (by decide) (by decide) (by decide) (by decide) (by rfl) (by rfl) (by rfl)
      (by decide) (by decide)⟩

/-! ## Canonical rendering round-trips -/

/-- A segment that survives normalization unchanged. -/
def CanonSeg (s : Str) : Prop :=
  s ≠ [] ∧ '/' ∉ s ∧ s ≠ str "." ∧ s ≠ str ".."

/-- All segments canonical. -/
def CanonSegs (l : List Str) : Prop := ∀ s ∈ l, CanonSeg s

theorem splitSlash_cons_slash (cs : Str) :
    splitSlash ('/' :: cs) = [] :: splitSlash cs := by
  cases hsr : splitSlash cs with
  | nil => exact absurd hsr (splitSlash_ne_nil cs)
  | cons s ss => simp [splitSlash, hsr]

theorem splitSlash_no_slash : ∀ {cs : Str}, '/' ∉ cs → splitSlash cs = [cs] := by
  intro cs
  induction cs with
  | nil => intro _; rfl
  | cons c rest ih =>
    intro h
    have hc : c ≠ '/' := fun hc => h (hc ▸ List.mem_cons_self _ _)
    rw [show splitSlash (c :: rest) =
        (match splitSlash rest with
         | [] => [[c]]
         | s :: ss => if c = '/' then [] :: s :: ss else (c :: s) :: ss) from rfl,
      ih (fun hm => h (List.mem_cons_of_mem c hm))]
    simp [hc]

theorem splitSlash_seg_append : ∀ {s : Str}, '/' ∉ s → ∀ (t : Str),
    splitSlash (s ++ '/' :: t) = s :: splitSlash t := by
  intro s
  induction s with
  | nil => intro _ t; exact splitSlash_cons_slash t
  | cons c s2 ih =>
    intro h t
    have hc : c ≠ '/' := fun hc => h (hc ▸ List.mem_cons_self _ _)
    rw [List.cons_append,
      show splitSlash (c :: (s2 ++ '/' :: t)) =
        (match splitSlash (s2 ++ '/' :: t) with
         | [] => [[c]]
         | s :: ss => if c = '/' then [] :: s :: ss else (c :: s) :: ss) from rfl,
      ih (fun hm => h (List.mem_cons_of_mem c hm)) t]
    simp [hc]

theorem splitSlash_interSlash : ∀ {l : List Str}, (∀ s ∈ l, '/' ∉ s) → l ≠ [] →
    splitSlash (interSlash l) = l := by
  intro l
  induction l with
  | nil => intro _ h; exact absurd rfl h
  | cons s l2 ih =>
    intro h _
    cases l2 with
    | nil => exact splitSlash_no_slash (h s (List.mem_cons_self _ _))
    | cons s2 l3 =>
      rw [interSlash_cons (by simp),
        splitSlash_seg_append (h s (List.mem_cons_self _ _)),
        ih (fun x hx => h x (List.mem_cons_of_mem s hx)) (by simp)]

theorem normAcc_canon : ∀ {l : List Str}, CanonSegs l → ∀ (acc : List Str),
    normAcc acc l = acc.reverse ++ l := by
  intro l
  induction l with
  | nil => intro _ acc; simp [normAcc]
  | cons seg rest ih =>
    intro h acc
    obtain ⟨h1, -, h3, h4⟩ := h seg (List.mem_cons_self _ _)
    rw [show normAcc acc (seg :: rest) =
        (if seg = [] ∨ seg = str "." then normAcc acc rest
         else if seg = str ".." then normAcc acc.tail rest
         else normAcc (seg :: acc) rest) from rfl,
      if_neg (by tauto), if_neg h4,
      ih (fun x hx => h x (List.mem_cons_of_mem seg hx)) (seg :: acc)]
    simp

theorem normSegs_renderAbs {l : List Str} (h : CanonSegs l) (hne : l ≠ []) :
    normSegs (renderAbs l) = l := by
  unfold normSegs renderAbs
  rw [splitSlash_cons_slash, splitSlash_interSlash (fun s hs => (h s hs).2.1) hne,
    show normAcc [] ([] :: l) = normAcc [] l from by simp [normAcc, str],
    normAcc_canon h]
  rfl

theorem canonSegs_renderAbs {l : List Str} (h : CanonSegs l) (hne : l ≠ []) :
    canonSegs (renderAbs l) = l := by
  unfold canonSegs
  rw [show joinRight [renderAbs l] = renderAbs l from by simp [joinRight, renderAbs]]
  exact normSegs_renderAbs h hne

theorem resolve1_renderAbs {l : List Str} (h : CanonSegs l) (hne : l ≠ []) :
    resolve1 (renderAbs l) = renderAbs l := by
  rw [resolve1_eq, canonSegs_renderAbs h hne]

theorem interSlash_append : ∀ {l₁ : List Str} (l₂ : List Str), l₁ ≠ [] → l₂ ≠ [] →
    interSlash (l₁ ++ l₂) = interSlash l₁ ++ '/' :: interSlash l₂ := by
  intro l₁
  induction l₁ with
  | nil => intro l₂ h _; exact absurd rfl h
  | cons a l₁' ih =>
    intro l₂ _ h2
    cases l₁' with
    | nil =>
      rw [List.singleton_append, interSlash_cons h2]
      rfl
    | cons b l₁'' =>
      rw [List.cons_append, interSlash_cons (by simp),
        interSlash_cons (l := b :: l₁'') (by simp),
        ih l₂ (by simp) h2]
      simp

theorem interSlash_ne_nil {l : List Str} (h : CanonSegs l) (hne : l ≠ []) :
    interSlash l ≠ [] := by
  cases l with
  | nil => exact absurd rfl hne
  | cons s l2 =>
    cases l2 with
    | nil => exact (h s (List.mem_cons_self _ _)).1
    | cons s2 l3 =>
      rw [interSlash_cons (by simp)]
      rcases s with - | ⟨c, s'⟩
      · simp
      · simp

/-- `dropWhile` skips a block that wholly satisfies the predicate. -/
theorem dropWhile_append_all {p : Char → Bool} : ∀ {xs : Str} (ys : Str),
    (∀ x ∈ xs, p x = true) → List.dropWhile p (xs ++ ys) = List.dropWhile p ys := by
  intro xs
  induction xs with
  | nil => intro ys _; rfl
  | cons x xs' ih =>
    intro ys h
    rw [List.cons_append, List.dropWhile_cons,
      if_pos (h x (List.mem_cons_self _ _)), ih ys (fun y hy => h y (by simp [hy]))]

/-- `path.dirname` drops the last segment of a canonically rendered path. -/
theorem dirname_renderAbs_snoc {l : List Str} {s : Str}
    (hl : CanonSegs l) (hs : SegOK s) (hne : l ≠ []) :
    dirname (renderAbs (l ++ [s])) = renderAbs l := by
  have hrender : renderAbs (l ++ [s]) = '/' :: (interSlash l ++ '/' :: s) := by
    unfold renderAbs
    rw [interSlash_append [s] hne (by simp)]
    rfl
  rw [hrender]
  unfold dirname
  rw [if_neg (by simp)]
  have hrevs : ('/' :: (interSlash l ++ '/' :: s)).reverse =
      s.reverse ++ '/' :: ((interSlash l).reverse ++ ['/']) := by
    simp
  cases hsr : s.reverse with
  | nil => exact absurd (by simpa using congrArg List.reverse hsr) hs.1
  | cons c s2 =>
    have hcs : c ∈ s := by
      have : c ∈ s.reverse := hsr ▸ List.mem_cons_self _ _
      simpa using this
    have hcslash : (c = '/') = False := by
      simp only [eq_iff_iff, iff_false]
      intro hc
      exact hs.2 (hc ▸ hcs)
    rw [hrevs, hsr, List.cons_append, List.dropWhile_cons]
    simp only [hcslash, decide_False, Bool.false_eq_true, if_false]
    rw [show c :: (s2 ++ '/' :: ((interSlash l).reverse ++ ['/'])) =
        (c :: s2) ++ '/' :: ((interSlash l).reverse ++ ['/']) from rfl,
      dropWhile_append_all _ (fun x hx => by
        have hxs : x ∈ s := by
          have : x ∈ s.reverse := hsr ▸ hx
          simpa using this
        simp only [decide_eq_true_eq]
        intro hxe
        exact hs.2 (hxe ▸ hxs)),
      List.dropWhile_cons]
    simp only [decide_not, decide_True, Bool.not_true, Bool.false_eq_true, if_false]
    simp only [List.tail_cons, List.reverse_append, List.reverse_reverse,
      List.reverse_cons, List.reverse_nil, List.nil_append, List.singleton_append]
    rw [if_neg (by simp), if_neg (by
      rintro ⟨-, h2⟩
      exact interSlash_ne_nil hl hne (List.cons.inj h2).2)]
    rfl

/-- `path.resolve(base, p)` joining step for an absolute base and a
relative `p`. -/
theorem joinRight_two {p base : Str} (hp : p ≠ []) (hph : p.head? ≠ some '/')
    (hbh : base.head? = some '/') : joinRight [p, base] = base ++ '/' :: p := by
  have hbne : base ≠ [] := by
    intro h
    rw [h] at hbh
    simp at hbh
  show (if p = [] then joinRight [base]
    else if p.head? = some '/' then p
    else joinRight [base] ++ '/' :: p) = base ++ '/' :: p
  rw [if_neg hp, if_neg hph]
  congr 1
  show (if base = [] then joinRight []
    else if base.head? = some '/' then base
    else joinRight [] ++ '/' :: base) = base
  rw [if_neg hbne, if_pos hbh]

/-! ## A nesting family for the depth ceiling (claim C7)

`chainFs n` is a linear chain of `n + 1` files under source root `"/r"`:
file `i` lives at `/r/a/…/a/x.html` (`i` copies of `a`) and, for `i < n`,
consists of the single directive `<!--#include file="a/x.html" -->`, which
resolves relative to its own directory to file `i + 1`; file `n` is the
plain text `"X"`.  Expanding file 0 therefore nests includes exactly `n`
levels deep. -/

/-- The one directive every non-leaf chain file contains. -/
def chainDirective : Str := str "<!--#include file=\"a/x.html\" -->"

/-- Directory segments of chain file `i`. -/
def chainDirSegs (i : Nat) : List Str := str "r" :: List.replicate i (str "a")

/-- Path segments of chain file `i`. -/
def chainSegs (i : Nat) : List Str :=
  str "r" :: (List.replicate i (str "a") ++ [str "x.html"])

/-- Absolute path of chain file `i`. -/
def chainPath (i : Nat) : Str := renderAbs (chainSegs i)

/-- Content of chain file `i` in the chain of length `n`. -/
def chainContent (n i : Nat) : Str := if i = n then str "X" else chainDirective

/-- The chain file system. -/
def chainFs (n : Nat) : FileSys :=
  (List.range (n + 1)).map (fun i => (chainPath i, chainContent n i))

theorem chainDirSegs_canon (i : Nat) : CanonSegs (chainDirSegs i) := by
  intro s hs
  rcases List.mem_cons.mp hs with rfl | hs2
  · exact ⟨by decide, by decide, by decide, by decide⟩
  · rw [List.eq_of_mem_replicate hs2]
    exact ⟨by decide, by decide, by decide, by decide⟩

theorem chainSegs_canon (i : Nat) : CanonSegs (chainSegs i) := by
  intro s hs
  rcases List.mem_cons.mp hs with rfl | hs2
  · exact ⟨by decide, by decide, by decide, by decide⟩
  · rcases List.mem_append.mp hs2 with hs3 | hs3
    · rw [List.eq_of_mem_replicate hs3]
      exact ⟨by decide, by decide, by decide, by decide⟩
    · rw [List.mem_singleton.mp hs3]
      exact ⟨by decide, by decide, by decide, by decide⟩

theorem chainSegs_segsOK (i : Nat) : SegsOK (chainSegs i) :=
  fun s hs => ⟨(chainSegs_canon i s hs).1, (chainSegs_canon i s hs).2.1⟩

theorem chainSegs_snoc (i : Nat) : chainSegs i = chainDirSegs i ++ [str "x.html"] := by
  simp [chainSegs, chainDirSegs]

theorem chainDirSegs_app (i : Nat) :
    chainDirSegs i ++ [str "a", str "x.html"] = chainSegs (i + 1) := by
  simp only [chainDirSegs, chainSegs, List.cons_append, List.replicate_succ']
  simp

theorem chainPath_inj {i j : Nat} (h : chainPath i = chainPath j) : i = j := by
  have hsegs : chainSegs i = chainSegs j :=
    (renderAbs_inj (chainSegs_segsOK i) (chainSegs_segsOK j)).mp h
  have hl := congrArg List.length hsegs
  simpa [chainSegs] using hl

theorem lookup_append {β : Type} (k : Str) (l₁ l₂ : List (Str × β)) :
    List.lookup k (l₁ ++ l₂) =
      (match List.lookup k l₁ with
       | some v => some v
       | none => List.lookup k l₂) := by
  induction l₁ with
  | nil => rfl
  | cons e l ih =>
    by_cases hk : k = e.1
    · simp [List.lookup, hk]
    · have : (k == e.1) = false := by simpa using hk
      simp [List.lookup, this, ih]

theorem lookup_not_mem {β : Type} (k : Str) : ∀ (l : List (Str × β)), (∀ e ∈ l, e.1 ≠ k) →
    List.lookup k l = none := by
  intro l
  induction l with
  | nil => intro _; rfl
  | cons e l ih =>
    intro h
    have : (k == e.1) = false := by
      simpa using fun he => (h e (List.mem_cons_self _ _)) he.symm
    simp [List.lookup, this, ih (fun x hx => h x (List.mem_cons_of_mem e hx))]

theorem lookup_range_map (f : Nat → Str) (g : Nat → Str) :
    ∀ (m k : Nat), k < m → (∀ i j, f i = f j → i = j) →
    List.lookup (f k) ((List.range m).map (fun i => (f i, g i))) = some (g k) := by
  intro m
  induction m with
  | zero => intro k hk _; omega
  | succ m ih =>
    intro k hk hinj
    rw [List.range_succ, List.map_append, lookup_append]
    by_cases hkm : k < m
    · rw [ih k hkm hinj]
    · have hk' : k = m := by omega
      subst hk'
      rw [lookup_not_mem _ _ (fun e he => by
        simp only [List.map_map, List.mem_map, List.mem_range] at he
        obtain ⟨i, hi, rfl⟩ := he
        exact fun hfe => absurd (hinj i k hfe) (by omega))]
      simp [List.lookup]

theorem chainFs_lookup {n k : Nat} (hk : k ≤ n) :
    readFile (chainFs n) (chainPath k) = some (chainContent n k) :=
  lookup_range_map chainPath (chainContent n) (n + 1) k (by omega)
    (fun _ _ h => chainPath_inj h)

theorem chain_resolve (i : Nat) :
    resolveIncludePath (str "file") (str "a/x.html") (chainPath i) (str "/r") =
      .ok (chainPath (i + 1)) := by
  have hdir : dirname (chainPath i) = renderAbs (chainDirSegs i) := by
    rw [chainPath, chainSegs_snoc]
    exact dirname_renderAbs_snoc (chainDirSegs_canon i)
      ⟨by decide, by decide⟩ (by simp [chainDirSegs])
  have hraw : rawResolve (str "file") (str "a/x.html") (chainPath i) (str "/r") =
      chainPath (i + 1) := by
    unfold rawResolve
    rw [if_pos rfl, hdir]
    unfold resolve2 nodeResolve
    rw [show ([renderAbs (chainDirSegs i), str "a/x.html"] : List Str).reverse =
        [str "a/x.html", renderAbs (chainDirSegs i)] from rfl]
    rw [joinRight_two (by decide) (by decide) (by simp [renderAbs])]
    rw [show renderAbs (chainDirSegs i) ++ '/' :: str "a/x.html" =
        renderAbs (chainDirSegs i ++ [str "a", str "x.html"]) from by
      unfold renderAbs
      rw [interSlash_append [str "a", str "x.html"] (by simp [chainDirSegs]) (by simp)]
      rfl]
    rw [chainDirSegs_app, normSegs_renderAbs (chainSegs_canon (i + 1)) (by simp [chainSegs])]
    rfl
  have hwithin : isPathWithinDirectory (chainPath (i + 1)) (str "/r") = true := by
    unfold isPathWithinDirectory
    rw [show chainPath (i + 1) = renderAbs (chainSegs (i + 1)) from rfl,
      resolve1_renderAbs (chainSegs_canon (i + 1)) (by simp [chainSegs]),
      show resolve1 (str "/r") = str "/r" from by decide]
    have : renderAbs (chainSegs (i + 1)) =
        '/' :: 'r' :: '/' :: interSlash (List.replicate (i + 1) (str "a") ++ [str "x.html"]) := by
      unfold renderAbs chainSegs
      rw [interSlash_cons (by simp)]
      rfl
    rw [this]
    simp [List.isPrefixOf, str]
  unfold resolveIncludePath
  rw [if_neg (by decide), if_pos (Or.inl rfl), hraw]
  simp [hwithin]

/-- The directive text of a chain file matches exactly once, as itself. -/
theorem chainDirective_matches :
    findMatches chainDirective = [(chainDirective, str "file", str "a/x.html")] := by
  decide

/-- Core computation of the chain expansion: entering chain file `i` at
depth `i` yields `"X"` when the whole chain fits in the ceiling and the
max-depth error for file 11 otherwise. -/
theorem chain_run (n : Nat) : ∀ (gas i : Nat) (V : List Str), i ≤ n → i ≤ 11 →
    gas + i ≥ 11 → (∀ j, i ≤ j → chainPath j ∉ V) →
    piGo (chainFs n) (str "/r") gas (chainContent n i) (chainPath i) V i =
      (if n ≤ 10 then .ok (str "X") else .error (.maxDepth (chainPath 11))) := by
  intro gas
  induction gas with
  | zero =>
    intro i V hin hi11 hgas hV
    have hi : i = 11 := by omega
    subst hi
    rw [show piGo (chainFs n) (str "/r") 0 (chainContent n 11) (chainPath 11) V 11 =
        .error (.maxDepth (chainPath 11)) from by
      unfold piGo MAX_INCLUDE_DEPTH
      rw [if_pos (by omega)]]
    rw [if_neg (by omega)]
  | succ gas ih =>
    intro i V hin hi11 hgas hV
    by_cases hi : i = 11
    · subst hi
      rw [show piGo (chainFs n) (str "/r") (gas + 1) (chainContent n 11)
            (chainPath 11) V 11 = .error (.maxDepth (chainPath 11)) from by
        unfold piGo MAX_INCLUDE_DEPTH
        rw [if_pos (by omega)]]
      rw [if_neg (by omega)]
    · have hi10 : i ≤ 10 := by omega
      unfold piGo
      rw [if_neg (by unfold MAX_INCLUDE_DEPTH; omega),
        if_neg (by simpa using hV i (le_refl i))]
      by_cases hin : i = n
      · subst hin
        rw [show chainContent i i = str "X" from by simp [chainContent]]
        rw [show findMatches (str "X") = [] from by decide]
        rw [if_pos (by omega)]
      · have hV2 : ∀ j, i + 1 ≤ j → chainPath j ∉ V ++ [chainPath i] := fun j hj => by
          intro hmem
          rcases List.mem_append.mp hmem with hm | hm
          · exact hV j (by omega) hm
          · exact absurd (chainPath_inj (List.mem_singleton.mp hm)) (by omega)
        rw [show chainContent n i = chainDirective from by simp [chainContent, hin],
          chainDirective_matches]
        show piLoop _ (chainFs n) (str "/r") (chainPath i) chainDirective
          [(chainDirective, str "file", str "a/x.html")] = _
        simp only [piLoop, chain_resolve i,
          chainFs_lookup (show i + 1 ≤ n by omega),
          ih (i + 1) (V ++ [chainPath i]) (by omega) (by omega) (by omega) hV2]
        by_cases hn : n ≤ 10
        · rw [if_pos hn]
          rfl
        · rw [if_neg hn]

/-- C7: the depth ceiling is the fixed constant 10.  First conjunct: for
every linear nesting of includes (`chainFs n` nests exactly `n` levels),
expansion succeeds with the fully spliced content when `n ≤ 10` and fails
with the max-depth error — aborting the whole expansion, with nothing
silently truncated — when `n ≥ 11`.  Second conjunct: every call entered
beyond the ceiling fails immediately with the max-depth error, whatever the
content, so no deeper nesting is ever silently expanded or truncated. -/
theorem processIncludes_depth_ceiling :
    (∀ n : Nat,
      processIncludes (chainFs n) (chainContent n 0) (chainPath 0) (str "/r") =
        (if n ≤ 10 then .ok (str "X") else .error (.maxDepth (chainPath 11)))) ∧
    (∀ (fs : FileSys) (content f root : Str) (V : List Str) (d gas : Nat),
      d > MAX_INCLUDE_DEPTH →
      piGo fs root gas content f V d = .error (.maxDepth f)) := by
  constructor
  · intro n
    exact chain_run n (piGoFuel 0) 0 [] (by omega) (by omega)
      (by unfold piGoFuel MAX_INCLUDE_DEPTH; omega) (fun j _ => List.not_mem_nil _)
  · intro fs content f root V d gas hd
    unfold piGo
    rw [if_pos hd]

/-- Witness for `processIncludes_depth_ceiling`: a chain of 11 nested
includes fails with the max-depth error while 10 levels succeed, and a call
already beyond the ceiling fails immediately. -/
theorem processIncludes_depth_ceiling_witness :
    processIncludes (chainFs 11) (chainContent 11 0) (chainPath 0) (str "/r") =
      .error (.maxDepth (chainPath 11)) ∧
    processIncludes (chainFs 10) (chainContent 10 0) (chainPath 0) (str "/r") =
      .ok (str "X") ∧
    (11 > MAX_INCLUDE_DEPTH ∧
      piGo [] (str "/r") 0 (str "X") (str "/r/f.html") [] 11 =
        .error (.maxDepth (str "/r/f.html"))) := by
  refine ⟨?_, ?_, by decide, ?_⟩
  · rw [processIncludes_depth_ceiling.1 11]
    rfl
  · rw [processIncludes_depth_ceiling.1 10]
    rfl
  · exact processIncludes_depth_ceiling.2 [] (str "X") (str "/r/f.html") (str "/r")
      [] 11 0 (by decide)

/-! ## Include chains and cycles (claim C2) -/

/-- Classifier for `CircularDependencyError`. -/
def isCircularErr : IncludeError → Bool
  | .circular _ _ => true
  | _ => false

/-- Classifier for the max-depth `Error`. -/
def isMaxDepthErr : IncludeError → Bool
  | .maxDepth _ => true
  | _ => false

/-- A directive edge: file `f` (readable, with content `c`) contains a
directive that resolves to `g`. -/
def edgeTo (fs : FileSys) (root f g : Str) : Prop :=
  ∃ c, readFile fs f = some c ∧ ∃ full ty ip,
    (full, ty, ip) ∈ findMatches c ∧ resolveIncludePath ty ip f root = .ok g

/-- `IncChain fs root f l g`: a nonempty directive path from `f` to `g`
through the intermediate files `l`.  `IncChain fs root f l f` states that
`f` transitively includes itself. -/
inductive IncChain (fs : FileSys) (root : Str) : Str → List Str → Str → Prop where
  | base {f g : Str} : edgeTo fs root f g → IncChain fs root f [] g
  | step {f x g : Str} {l : List Str} :
      edgeTo fs root f x → IncChain fs root x l g → IncChain fs root f (x :: l) g

/-- Every directive of every file of `fs` resolves inside the root and its
target is readable (rules out `PathTraversal` and `IncludeNotFound`). -/
def ResolvesAndReads (fs : FileSys) (root : Str) : Bool :=
  fs.all fun pc =>
    (findMatches pc.2).all fun m =>
      match resolveIncludePath m.2.1 m.2.2 pc.1 root with
      | .ok r => (readFile fs r).isSome
      | .error _ => false

theorem lookup_mem : ∀ {fs : FileSys} {p c : Str},
    List.lookup p fs = some c → (p, c) ∈ fs := by
  intro fs
  induction fs with
  | nil => intro p c h; cases h
  | cons e l ih =>
    rcases e with ⟨k, v⟩
    intro p c h
    by_cases hp : p = k
    · have hbeq : (p == k) = true := by simpa using hp
      simp only [List.lookup, hbeq] at h
      obtain rfl : v = c := Option.some.inj h
      subst hp
      exact List.mem_cons_self _ _
    · have hbeq : (p == k) = false := by simpa using hp
      simp only [List.lookup, hbeq] at h
      exact List.mem_cons_of_mem (k, v) (ih h)

theorem resolvesAndReads_spec {fs : FileSys} {root : Str}
    (hRR : ResolvesAndReads fs root = true) {p c full ty ip : Str}
    (hread : readFile fs p = some c) (hm : (full, ty, ip) ∈ findMatches c) :
    ∃ r, resolveIncludePath ty ip p root = .ok r ∧
      ∃ c2, readFile fs r = some c2 := by
  have hmem : (p, c) ∈ fs := lookup_mem hread
  rw [ResolvesAndReads, List.all_eq_true] at hRR
  have h1 := hRR (p, c) hmem
  rw [List.all_eq_true] at h1
  have h2 := h1 (full, ty, ip) hm
  cases hres : resolveIncludePath ty ip p root with
  | error e =>
    simp only [hres] at h2
    cases h2
  | ok r =>
    simp only [hres] at h2
    cases hr2 : readFile fs r with
    | none => rw [hr2] at h2; cases h2
    | some c2 => exact ⟨r, rfl, c2, hr2⟩

/-- A successful loop run implies each directive resolved, its target was
readable, and its recursive expansion succeeded. -/
theorem piLoop_ok_steps {recur : Str → Str → Except IncludeError Str}
    {fs : FileSys} {root f : Str} :
    ∀ {ms : List (Str × Str × Str)} {pc out : Str},
    piLoop recur fs root f pc ms = .ok out →
    ∀ m ∈ ms, ∀ {r : Str}, resolveIncludePath m.2.1 m.2.2 f root = .ok r →
    ∃ c2, readFile fs r = some c2 ∧ ∃ out2, recur c2 r = .ok out2 := by
  intro ms
  induction ms with
  | nil => intro pc out _ m hm; exact absurd hm (List.not_mem_nil m)
  | cons m0 ms ih =>
    intro pc out h m hm r hres
    rcases m0 with ⟨full0, ty0, ip0⟩
    rw [show piLoop recur fs root f pc ((full0, ty0, ip0) :: ms) =
        (match resolveIncludePath ty0 ip0 f root with
         | .error e => .error e
         | .ok resolved =>
           match readFile fs resolved with
           | none => .error (.includeNotFound ip0 f)
           | some includeContent =>
             match recur includeContent resolved with
             | .error e => .error e
             | .ok processedInclude =>
               piLoop recur fs root f
                 (jsReplaceFirst pc full0 processedInclude) ms) from rfl] at h
    cases hres0 : resolveIncludePath ty0 ip0 f root with
    | error e => simp only [hres0] at h; cases h
    | ok r0 =>
      simp only [hres0] at h
      cases hread0 : readFile fs r0 with
      | none => simp only [hread0] at h; cases h
      | some c0 =>
        simp only [hread0] at h
        cases hrec0 : recur c0 r0 with
        | error e => simp only [hrec0] at h; cases h
        | ok out0 =>
          simp only [hrec0] at h
          rcases List.mem_cons.mp hm with heq | hm2
          · rw [heq] at hres
            have hrr : r0 = r := Except.ok.inj (hres0.symm.trans hres)
            subst hrr
            exact ⟨c0, hread0, out0, hrec0⟩
          · exact ih h m hm2 hres

/-- A successful call was not a revisit. -/
theorem piGo_ok_not_mem {fs : FileSys} {root : Str} {gas : Nat} {c f : Str}
    {V : List Str} {d : Nat} {out : Str}
    (h : piGo fs root gas c f V d = .ok out) : f ∉ V := by
  intro hf
  unfold piGo at h
  by_cases hd : d > MAX_INCLUDE_DEPTH
  · rw [if_pos hd] at h; cases h
  · rw [if_neg hd, if_pos hf] at h; cases h

/-- Destructor for a successful `piGo` call with directives present. -/
theorem piGo_ok_dest {fs : FileSys} {root : Str} {gas : Nat} {c f : Str}
    {V : List Str} {d : Nat} {out : Str}
    (h : piGo fs root gas c f V d = .ok out) :
    d ≤ MAX_INCLUDE_DEPTH ∧ f ∉ V ∧
      (findMatches c = [] ∨ ∃ gas', gas = gas' + 1 ∧
        piLoop (fun ic rp => piGo fs root gas' ic rp (V ++ [f]) (d + 1))
          fs root f c (findMatches c) = .ok out) := by
  unfold piGo at h
  by_cases hd : d > MAX_INCLUDE_DEPTH
  · rw [if_pos hd] at h; cases h
  · rw [if_neg hd] at h
    by_cases hf : f ∈ V
    · rw [if_pos hf] at h; cases h
    · rw [if_neg hf] at h
      refine ⟨by omega, hf, ?_⟩
      cases hfm : findMatches c with
      | nil => exact Or.inl rfl
      | cons m ms =>
        rw [hfm] at h
        cases gas with
        | zero => cases h
        | succ gas' =>
          exact Or.inr ⟨gas', rfl, h⟩

/-- Along any directive chain out of a successfully expanded file, no file
of the current visiting set is ever reached — in particular the chain's end
is not the file itself. -/
theorem piGo_ok_chain {fs : FileSys} {root : Str} :
    ∀ {f : Str} {l : List Str} {g : Str}, IncChain fs root f l g →
    ∀ {gas : Nat} {c : Str} {V : List Str} {d : Nat} {out : Str},
    readFile fs f = some c → piGo fs root gas c f V d = .ok out →
    g ∉ V ++ [f] := by
  intro f l g hchain
  induction hchain with
  | base hedge =>
    intro gas c V d out hread hok
    obtain ⟨c', hc', full, ty, ip, hm, hres⟩ := hedge
    have hcc : c' = c := Option.some.inj (hc'.symm.trans hread)
    subst hcc
    obtain ⟨-, -, hrest⟩ := piGo_ok_dest hok
    rcases hrest with hnil | ⟨gas', -, hloop⟩
    · rw [hnil] at hm; exact absurd hm (List.not_mem_nil _)
    · obtain ⟨c2, -, out2, hok2⟩ := piLoop_ok_steps hloop _ hm hres
      exact piGo_ok_not_mem hok2
  | step hedge _ ih =>
    intro gas c V d out hread hok
    obtain ⟨c', hc', full, ty, ip, hm, hres⟩ := hedge
    have hcc : c' = c := Option.some.inj (hc'.symm.trans hread)
    subst hcc
    obtain ⟨-, -, hrest⟩ := piGo_ok_dest hok
    rcases hrest with hnil | ⟨gas', -, hloop⟩
    · rw [hnil] at hm; exact absurd hm (List.not_mem_nil _)
    · obtain ⟨c2, hc2, out2, hok2⟩ := piLoop_ok_steps hloop _ hm hres
      intro hg
      exact ih hc2 hok2 (List.mem_append_left _ hg)

/-- A file that transitively includes itself never expands successfully. -/
theorem processIncludes_cycle_not_ok {fs : FileSys} {root f c : Str} {l : List Str}
    (hchain : IncChain fs root f l f) (hread : readFile fs f = some c) :
    ∀ out, processIncludes fs c f root ≠ .ok out := by
  intro out hok
  exact piGo_ok_chain hchain hread hok
    (List.mem_append_right [] (List.mem_singleton.mpr rfl))

/-- Classification of the errors a loop run can produce: a resolution
failure, a missing target, or an error of a recursive expansion. -/
theorem piLoop_error_src {recur : Str → Str → Except IncludeError Str}
    {fs : FileSys} {root f : Str} :
    ∀ {ms : List (Str × Str × Str)} {pc : Str} {e : IncludeError},
    piLoop recur fs root f pc ms = .error e →
    (∃ m ∈ ms, resolveIncludePath m.2.1 m.2.2 f root = .error e) ∨
    (∃ m ∈ ms, ∃ r, resolveIncludePath m.2.1 m.2.2 f root = .ok r ∧
      readFile fs r = none ∧ e = .includeNotFound m.2.2 f) ∨
    (∃ m ∈ ms, ∃ r c2, resolveIncludePath m.2.1 m.2.2 f root = .ok r ∧
      readFile fs r = some c2 ∧ recur c2 r = .error e) := by
  intro ms
  induction ms with
  | nil => intro pc e h; cases h
  | cons m0 ms ih =>
    intro pc e h
    rcases m0 with ⟨full0, ty0, ip0⟩
    rw [show piLoop recur fs root f pc ((full0, ty0, ip0) :: ms) =
        (match resolveIncludePath ty0 ip0 f root with
         | .error e => .error e
         | .ok resolved =>
           match readFile fs resolved with
           | none => .error (.includeNotFound ip0 f)
           | some includeContent =>
             match recur includeContent resolved with
             | .error e => .error e
             | .ok processedInclude =>
               piLoop recur fs root f
                 (jsReplaceFirst pc full0 processedInclude) ms) from rfl] at h
    cases hres0 : resolveIncludePath ty0 ip0 f root with
    | error e0 =>
      simp only [hres0] at h
      exact Or.inl ⟨(full0, ty0, ip0), List.mem_cons_self _ _,
        by rw [hres0, Except.error.inj h]⟩
    | ok r0 =>
      simp only [hres0] at h
      cases hread0 : readFile fs r0 with
      | none =>
        simp only [hread0] at h
        exact Or.inr (Or.inl ⟨(full0, ty0, ip0), List.mem_cons_self _ _, r0,
          hres0, hread0, (Except.error.inj h).symm⟩)
      | some c0 =>
        simp only [hread0] at h
        cases hrec0 : recur c0 r0 with
        | error e0 =>
          simp only [hrec0] at h
          exact Or.inr (Or.inr ⟨(full0, ty0, ip0), List.mem_cons_self _ _, r0, c0,
            hres0, hread0, by rw [hrec0, Except.error.inj h]⟩)
        | ok out0 =>
          simp only [hrec0] at h
          rcases ih h with ⟨m, hm, hp⟩ | ⟨m, hm, hp⟩ | ⟨m, hm, hp⟩
          · exact Or.inl ⟨m, List.mem_cons_of_mem _ hm, hp⟩
          · exact Or.inr (Or.inl ⟨m, List.mem_cons_of_mem _ hm, hp⟩)
          · exact Or.inr (Or.inr ⟨m, List.mem_cons_of_mem _ hm, hp⟩)

/-- The errors `resolveIncludePath` itself can throw. -/
theorem resolve_error_kinds {ty ip f root : Str} {e : IncludeError}
    (h : resolveIncludePath ty ip f root = .error e) :
    e = .invalidPath ∨ (∃ a b, e = .pathTraversal a b) ∨ ∃ t, e = .invalidType t := by
  unfold resolveIncludePath at h
  by_cases h1 : ip = []
  · rw [if_pos h1] at h
    exact Or.inl (Except.error.inj h).symm
  · rw [if_neg h1] at h
    by_cases h2 : ty = str "file" ∨ ty = str "virtual"
    · rw [if_pos h2] at h
      change (if isPathWithinDirectory (rawResolve ty ip f root) root = true
          then Except.ok (rawResolve ty ip f root)
          else Except.error (IncludeError.pathTraversal ip root)) = Except.error e at h
      by_cases h3 : isPathWithinDirectory (rawResolve ty ip f root) root = true
      · rw [if_pos h3] at h; cases h
      · rw [if_neg h3] at h
        exact Or.inr (Or.inl ⟨ip, root, (Except.error.inj h).symm⟩)
    · rw [if_neg h2] at h
      exact Or.inr (Or.inr ⟨ty, (Except.error.inj h).symm⟩)

/-- Under global resolvability/readability, every expansion error is a
circular-dependency error, a max-depth error, or fuel exhaustion. -/
theorem piGo_error_kind {fs : FileSys} {root : Str}
    (hRR : ResolvesAndReads fs root = true) :
    ∀ (gas : Nat) {c f : Str} {V : List Str} {d : Nat} {e : IncludeError},
    readFile fs f = some c → piGo fs root gas c f V d = .error e →
    isCircularErr e = true ∨ isMaxDepthErr e = true ∨ e = .fuelOut := by
  intro gas
  induction gas with
  | zero =>
    intro c f V d e hread h
    unfold piGo at h
    by_cases hd : d > MAX_INCLUDE_DEPTH
    · rw [if_pos hd] at h
      rw [← Except.error.inj h]
      exact Or.inr (Or.inl rfl)
    · rw [if_neg hd] at h
      by_cases hf : f ∈ V
      · rw [if_pos hf] at h
        rw [← Except.error.inj h]
        exact Or.inl rfl
      · rw [if_neg hf] at h
        cases hfm : findMatches c with
        | nil => rw [hfm] at h; cases h
        | cons m ms =>
          rw [hfm] at h
          exact Or.inr (Or.inr (Except.error.inj h).symm)
  | succ gas ih =>
    intro c f V d e hread h
    unfold piGo at h
    by_cases hd : d > MAX_INCLUDE_DEPTH
    · rw [if_pos hd] at h
      rw [← Except.error.inj h]
      exact Or.inr (Or.inl rfl)
    · rw [if_neg hd] at h
      by_cases hf : f ∈ V
      · rw [if_pos hf] at h
        rw [← Except.error.inj h]
        exact Or.inl rfl
      · rw [if_neg hf] at h
        cases hfm : findMatches c with
        | nil => rw [hfm] at h; cases h
        | cons m ms =>
          rw [hfm] at h
          have hsrc := piLoop_error_src
            (show piLoop (fun ic rp => piGo fs root gas ic rp (V ++ [f]) (d + 1))
              fs root f c (m :: ms) = .error e from h)
          rcases hsrc with ⟨m1, hm1, hp⟩ | ⟨m1, hm1, r, hok, hnone, -⟩ |
            ⟨m1, hm1, r, c2, hok, hsome, hrec⟩
          · rcases m1 with ⟨full1, ty1, ip1⟩
            obtain ⟨r, hok, -⟩ :=
              resolvesAndReads_spec hRR hread (by rw [hfm]; exact hm1)
            rw [hok] at hp
            cases hp
          · rcases m1 with ⟨full1, ty1, ip1⟩
            obtain ⟨r2, hok2, c2, hsome2⟩ :=
              resolvesAndReads_spec hRR hread (by rw [hfm]; exact hm1)
            rw [hok2] at hok
            rw [Except.ok.inj hok] at hsome2
            rw [hsome2] at hnone
            cases hnone
          · exact ih hsome hrec

/-- With the fuel the embedding supplies, fuel exhaustion is unreachable. -/
theorem piGo_no_fuelOut {fs : FileSys} {root : Str} :
    ∀ (gas : Nat) {c f : Str} {V : List Str} {d : Nat},
    gas + d ≥ MAX_INCLUDE_DEPTH + 1 →
    piGo fs root gas c f V d ≠ .error .fuelOut := by
  intro gas
  induction gas with
  | zero =>
    intro c f V d hge h
    unfold piGo at h
    rw [if_pos (by unfold MAX_INCLUDE_DEPTH at *; omega)] at h
    cases Except.error.inj h
  | succ gas ih =>
    intro c f V d hge h
    unfold piGo at h
    by_cases hd : d > MAX_INCLUDE_DEPTH
    · rw [if_pos hd] at h
      cases Except.error.inj h
    · rw [if_neg hd] at h
      by_cases hf : f ∈ V
      · rw [if_pos hf] at h
        cases Except.error.inj h
      · rw [if_neg hf] at h
        cases hfm : findMatches c with
        | nil => rw [hfm] at h; cases h
        | cons m ms =>
          rw [hfm] at h
          have hsrc := piLoop_error_src
            (show piLoop (fun ic rp => piGo fs root gas ic rp (V ++ [f]) (d + 1))
              fs root f c (m :: ms) = .error .fuelOut from h)
          rcases hsrc with ⟨m1, -, hp⟩ | ⟨m1, -, r, -, -, hbad⟩ |
            ⟨m1, -, r, c2, -, -, hrec⟩
          · rcases resolve_error_kinds hp with hbad | ⟨a, b, hbad⟩ | ⟨t, hbad⟩ <;>
              cases hbad
          · cases hbad
          · exact ih (by omega) hrec

/-- Decidable check for `edgeTo`. -/
def edgeCheck (fs : FileSys) (root f g : Str) : Bool :=
  match readFile fs f with
  | none => false
  | some c =>
    (findMatches c).any fun m =>
      match resolveIncludePath m.2.1 m.2.2 f root with
      | .ok r => r = g
      | .error _ => false

theorem edgeTo_of_check {fs : FileSys} {root f g : Str}
    (h : edgeCheck fs root f g = true) : edgeTo fs root f g := by
  unfold edgeCheck at h
  cases hc : readFile fs f with
  | none => rw [hc] at h; cases h
  | some c =>
    rw [hc] at h
    rw [List.any_eq_true] at h
    obtain ⟨m, hm, hm2⟩ := h
    rcases m with ⟨full, ty, ip⟩
    cases hres : resolveIncludePath ty ip f root with
    | error e => simp only [hres] at hm2; cases hm2
    | ok r =>
      simp only [hres] at hm2
      have : r = g := by simpa using hm2
      subst this
      exact ⟨c, hc, full, ty, ip, hm, hres⟩

/-- A 12-file include cycle under root `"/r"`: `t → a → b → … → k → t`.
Expanding `t` walks `a…k` at depths 1…11 and hits the depth ceiling at `k`
before the cycle closes back on `t`. -/
def cyc12 : FileSys :=
  [ (str "/r/t.html", str "<!--#include virtual=\"/a.html\" -->"),
    (str "/r/a.html", str "<!--#include virtual=\"/b.html\" -->"),
    (str "/r/b.html", str "<!--#include virtual=\"/c.html\" -->"),
    (str "/r/c.html", str "<!--#include virtual=\"/d.html\" -->"),
    (str "/r/d.html", str "<!--#include virtual=\"/e.html\" -->"),
    (str "/r/e.html", str "<!--#include virtual=\"/f.html\" -->"),
    (str "/r/f.html", str "<!--#include virtual=\"/g.html\" -->"),
    (str "/r/g.html", str "<!--#include virtual=\"/h.html\" -->"),
    (str "/r/h.html", str "<!--#include virtual=\"/i.html\" -->"),
    (str "/r/i.html", str "<!--#include virtual=\"/j.html\" -->"),
    (str "/r/j.html", str "<!--#include virtual=\"/k.html\" -->"),
    (str "/r/k.html", str "<!--#include virtual=\"/t.html\" -->") ]

/-- The file `/r/t.html` of `cyc12` transitively includes itself. -/
theorem cyc12_chain : IncChain cyc12 (str "/r") (str "/r/t.html")
    [str "/r/a.html", str "/r/b.html", str "/r/c.html", str "/r/d.html",
     str "/r/e.html", str "/r/f.html", str "/r/g.html", str "/r/h.html",
     str "/r/i.html", str "/r/j.html", str "/r/k.html"] (str "/r/t.html") :=
  .step (edgeTo_of_check (by decide)) (.step (edgeTo_of_check (by decide))
    (.step (edgeTo_of_check (by decide)) (.step (edgeTo_of_check (by decide))
    (.step (edgeTo_of_check (by decide)) (.step (edgeTo_of_check (by decide))
    (.step (edgeTo_of_check (by decide)) (.step (edgeTo_of_check (by decide))
    (.step (edgeTo_of_check (by decide)) (.step (edgeTo_of_check (by decide))
    (.step (edgeTo_of_check (by decide))
      (.base (edgeTo_of_check (by decide)))))))))))))

/-- From any call state whose depth guard still passes after one more
level (`d + 1 ≤ 10`, i.e. the repeat is reached within the depth ceiling),
a file whose next directive resolves back to itself fails with
`CircularDependencyError` carrying the visiting chain
(`Array.from(processedFiles)` at the repeat). -/
theorem piGo_self_circular {fs : FileSys} {root f c c2 full ty ip : Str}
    {ms : List (Str × Str × Str)} {V : List Str} (g d : Nat)
    (hd : d + 1 ≤ MAX_INCLUDE_DEPTH) (hfV : f ∉ V)
    (hm : findMatches c = (full, ty, ip) :: ms)
    (hres : resolveIncludePath ty ip f root = .ok f)
    (hread : readFile fs f = some c2) :
    piGo fs root (g + 1) c f V d = .error (.circular f (V ++ [f])) := by
  have hd1 : ¬ d > MAX_INCLUDE_DEPTH := by
    unfold MAX_INCLUDE_DEPTH at hd ⊢
    omega
  have hrec : piGo fs root g c2 f (V ++ [f]) (d + 1) =
      .error (.circular f (V ++ [f])) := by
    unfold piGo
    rw [if_neg (show ¬ d + 1 > MAX_INCLUDE_DEPTH from by
        unfold MAX_INCLUDE_DEPTH at hd ⊢; omega),
      if_pos (show f ∈ V ++ [f] from List.mem_append.mpr
        (Or.inr (List.mem_singleton.mpr rfl)))]
  unfold piGo
  rw [if_neg hd1, if_neg hfV, hm]
  show piLoop (fun ic r => piGo fs root g ic r (V ++ [f]) (d + 1))
      fs root f c ((full, ty, ip) :: ms) = .error (.circular f (V ++ [f]))
  rw [show piLoop (fun ic r => piGo fs root g ic r (V ++ [f]) (d + 1))
      fs root f c ((full, ty, ip) :: ms) =
      (match resolveIncludePath ty ip f root with
       | .error e => .error e
       | .ok resolved =>
         match readFile fs resolved with
         | none => .error (.includeNotFound ip f)
         | some includeContent =>
           match piGo fs root g includeContent resolved (V ++ [f]) (d + 1) with
           | .error e => .error e
           | .ok processedInclude =>
             piLoop (fun ic r => piGo fs root g ic r (V ++ [f]) (d + 1))
               fs root f (jsReplaceFirst c full processedInclude) ms) from rfl]
  simp only [hres, hread, hrec]

/-- A two-file include cycle under root `"/r"`: `a1 → a2 → a1`. -/
def cycFs2 : FileSys :=
  [ (str "/r/a1.html", str "<!--#include virtual=\"/a2.html\" -->"),
    (str "/r/a2.html", str "<!--#include virtual=\"/a1.html\" -->") ]

/-- A ten-file include cycle under root `"/r"`: `a1 → a2 → … → a10 → a1`.
The repeat of `a1` is reached at depth 10, exactly at the ceiling. -/
def cycFs10 : FileSys :=
  [ (str "/r/a1.html", str "<!--#include virtual=\"/a2.html\" -->"),
    (str "/r/a2.html", str "<!--#include virtual=\"/a3.html\" -->"),
    (str "/r/a3.html", str "<!--#include virtual=\"/a4.html\" -->"),
    (str "/r/a4.html", str "<!--#include virtual=\"/a5.html\" -->"),
    (str "/r/a5.html", str "<!--#include virtual=\"/a6.html\" -->"),
    (str "/r/a6.html", str "<!--#include virtual=\"/a7.html\" -->"),
    (str "/r/a7.html", str "<!--#include virtual=\"/a8.html\" -->"),
    (str "/r/a8.html", str "<!--#include virtual=\"/a9.html\" -->"),
    (str "/r/a9.html", str "<!--#include virtual=\"/a10.html\" -->"),
    (str "/r/a10.html", str "<!--#include virtual=\"/a1.html\" -->") ]

/-- An eleven-file include cycle under root `"/r"`.  Walking it reaches
depth 11 (on `a1` again) before the cycle check can fire, so the depth
guard wins. -/
def cycFs11 : FileSys :=
  [ (str "/r/a1.html", str "<!--#include virtual=\"/a2.html\" -->"),
    (str "/r/a2.html", str "<!--#include virtual=\"/a3.html\" -->"),
    (str "/r/a3.html", str "<!--#include virtual=\"/a4.html\" -->"),
    (str "/r/a4.html", str "<!--#include virtual=\"/a5.html\" -->"),
    (str "/r/a5.html", str "<!--#include virtual=\"/a6.html\" -->"),
    (str "/r/a6.html", str "<!--#include virtual=\"/a7.html\" -->"),
    (str "/r/a7.html", str "<!--#include virtual=\"/a8.html\" -->"),
    (str "/r/a8.html", str "<!--#include virtual=\"/a9.html\" -->"),
    (str "/r/a9.html", str "<!--#include virtual=\"/a10.html\" -->"),
    (str "/r/a10.html", str "<!--#include virtual=\"/a11.html\" -->"),
    (str "/r/a11.html", str "<!--#include virtual=\"/a1.html\" -->") ]

/-- `/r/a1.html` of `cycFs2` transitively includes itself. -/
theorem cycFs2_chain : IncChain cycFs2 (str "/r") (str "/r/a1.html")
    [str "/r/a2.html"] (str "/r/a1.html") :=
  .step (edgeTo_of_check (by decide)) (.base (edgeTo_of_check (by decide)))

/-- `/r/a1.html` of `cycFs10` transitively includes itself. -/
theorem cycFs10_chain : IncChain cycFs10 (str "/r") (str "/r/a1.html")
    [str "/r/a2.html", str "/r/a3.html", str "/r/a4.html", str "/r/a5.html",
     str "/r/a6.html", str "/r/a7.html", str "/r/a8.html", str "/r/a9.html",
     str "/r/a10.html"] (str "/r/a1.html") :=
  .step (edgeTo_of_check (by decide)) (.step (edgeTo_of_check (by decide))
    (.step (edgeTo_of_check (by decide)) (.step (edgeTo_of_check (by decide))
    (.step (edgeTo_of_check (by decide)) (.step (edgeTo_of_check (by decide))
    (.step (edgeTo_of_check (by decide)) (.step (edgeTo_of_check (by decide))
    (.step (edgeTo_of_check (by decide))
      (.base (edgeTo_of_check (by decide)))))))))))

/-- `/r/a1.html` of `cycFs11` transitively includes itself. -/
theorem cycFs11_chain : IncChain cycFs11 (str "/r") (str "/r/a1.html")
    [str "/r/a2.html", str "/r/a3.html", str "/r/a4.html", str "/r/a5.html",
     str "/r/a6.html", str "/r/a7.html", str "/r/a8.html", str "/r/a9.html",
     str "/r/a10.html", str "/r/a11.html"] (str "/r/a1.html") :=
  .step (edgeTo_of_check (by decide)) (.step (edgeTo_of_check (by decide))
    (.step (edgeTo_of_check (by decide)) (.step (edgeTo_of_check (by decide))
    (.step (edgeTo_of_check (by decide)) (.step (edgeTo_of_check (by decide))
    (.step (edgeTo_of_check (by decide)) (.step (edgeTo_of_check (by decide))
    (.step (edgeTo_of_check (by decide)) (.step (edgeTo_of_check (by decide))
      (.base (edgeTo_of_check (by decide))))))))))))

/-- A file that includes itself directly. -/
def selfFs : FileSys :=
  [(str "/r/s.html", str "<!--#include virtual=\"/s.html\" -->")]

/-! ## Claim C2 -/

/-- C2 counterexample: `cyc12` is an input in which a file (`/r/t.html`)
transitively includes itself, yet `processIncludes` on that file fails with
the max-depth `Error` — the depth guard runs before the cycle check and the
cycle is 12 files long — not with a `CircularDependencyError`. -/
theorem processIncludes_cycle_maxdepth_counterexample :
    IncChain cyc12 (str "/r") (str "/r/t.html")
      [str "/r/a.html", str "/r/b.html", str "/r/c.html", str "/r/d.html",
       str "/r/e.html", str "/r/f.html", str "/r/g.html", str "/r/h.html",
       str "/r/i.html", str "/r/j.html", str "/r/k.html"] (str "/r/t.html") ∧
    processIncludes cyc12 (str "<!--#include virtual=\"/a.html\" -->")
      (str "/r/t.html") (str "/r") = .error (.maxDepth (str "/r/k.html")) ∧
    isCircularErr (.maxDepth (str "/r/k.html")) = false :=
  ⟨cyc12_chain, by rfl, by rfl⟩

/-- C2 (amended): expanding a file that transitively includes itself always
fails and never hangs or overflows the call stack, provided every directive
in the input resolves and its target is readable.  When the repeat is
reached within the depth ceiling the failure is a `CircularDependencyError`
naming the visited chain: in general, from any call state at depth at most
9, a file whose next directive resolves back to itself fails with
`CircularDependencyError` carrying the visiting chain, and concretely a
two-file cycle and a ten-file cycle (repeat at depth 10, the ceiling) fail
with `CircularDependencyError` naming every file of the cycle — whereas an
eleven-file cycle reaches depth 11 first and fails with the max-depth
`Error`, since the depth guard runs before the cycle check.  And because
the visiting set is chain-scoped (copied per recursive call), a document
including the same file twice in sibling branches expands successfully. -/
theorem processIncludes_self_include_fails :
    (∀ (fs : FileSys) (root f c : Str) (l : List Str),
      ResolvesAndReads fs root = true → readFile fs f = some c →
      IncChain fs root f l f →
      ∃ e, processIncludes fs c f root = .error e ∧
        (isCircularErr e || isMaxDepthErr e) = true) ∧
    (∀ (fs : FileSys) (root f c c2 full ty ip : Str)
      (ms : List (Str × Str × Str)) (V : List Str) (d : Nat),
      d + 1 ≤ MAX_INCLUDE_DEPTH → f ∉ V →
      findMatches c = (full, ty, ip) :: ms →
      resolveIncludePath ty ip f root = .ok f →
      readFile fs f = some c2 →
      processIncludes fs c f root V d = .error (.circular f (V ++ [f]))) ∧
    (IncChain cycFs2 (str "/r") (str "/r/a1.html") [str "/r/a2.html"]
        (str "/r/a1.html") ∧
      processIncludes cycFs2 (str "<!--#include virtual=\"/a2.html\" -->")
        (str "/r/a1.html") (str "/r") =
        .error (.circular (str "/r/a1.html")
          [str "/r/a1.html", str "/r/a2.html"])) ∧
    (IncChain cycFs10 (str "/r") (str "/r/a1.html")
        [str "/r/a2.html", str "/r/a3.html", str "/r/a4.html",
         str "/r/a5.html", str "/r/a6.html", str "/r/a7.html",
         str "/r/a8.html", str "/r/a9.html", str "/r/a10.html"]
        (str "/r/a1.html") ∧
      processIncludes cycFs10 (str "<!--#include virtual=\"/a2.html\" -->")
        (str "/r/a1.html") (str "/r") =
        .error (.circular (str "/r/a1.html")
          [str "/r/a1.html", str "/r/a2.html", str "/r/a3.html",
           str "/r/a4.html", str "/r/a5.html", str "/r/a6.html",
           str "/r/a7.html", str "/r/a8.html", str "/r/a9.html",
           str "/r/a10.html"])) ∧
    (IncChain cycFs11 (str "/r") (str "/r/a1.html")
        [str "/r/a2.html", str "/r/a3.html", str "/r/a4.html",
         str "/r/a5.html", str "/r/a6.html", str "/r/a7.html",
         str "/r/a8.html", str "/r/a9.html", str "/r/a10.html",
         str "/r/a11.html"] (str "/r/a1.html") ∧
      processIncludes cycFs11 (str "<!--#include virtual=\"/a2.html\" -->")
        (str "/r/a1.html") (str "/r") =
        .error (.maxDepth (str "/r/a1.html"))) ∧
    processIncludes [(str "/src/h.html", str "X")]
      (str "<!--#include file=\"h.html\" --><!--#include file=\"h.html\" -->")
      (str "/src/i.html") (str "/src") = .ok (str "XX") := by
  refine ⟨?_, ?_, ⟨cycFs2_chain, by rfl⟩, ⟨cycFs10_chain, by rfl⟩,
    ⟨cycFs11_chain, by rfl⟩, by rfl⟩
  · intro fs root f c l hRR hread hchain
    cases hres : processIncludes fs c f root with
    | ok out => exact absurd hres (processIncludes_cycle_not_ok hchain hread out)
    | error e =>
      refine ⟨e, rfl, ?_⟩
      have hkind := piGo_error_kind hRR (piGoFuel 0) hread hres
      rcases hkind with hk | hk | hk
      · rw [hk]; rfl
      · rw [hk, Bool.or_true]
      · exfalso
        exact piGo_no_fuelOut (piGoFuel 0)
          (by unfold piGoFuel MAX_INCLUDE_DEPTH; omega) (hk ▸ hres)
  · intro fs root f c c2 full ty ip ms V d hd hfV hm hres hread
    show piGo fs root (piGoFuel d) c f V d = .error (.circular f (V ++ [f]))
    rw [show piGoFuel d = (MAX_INCLUDE_DEPTH - d) + 1 from by
      unfold MAX_INCLUDE_DEPTH at hd
      unfold piGoFuel MAX_INCLUDE_DEPTH
      omega]
    exact piGo_self_circular (MAX_INCLUDE_DEPTH - d) d hd hfV hm hres hread

/-- Witness for `processIncludes_self_include_fails`: the general
always-fails part at the `cyc12` input, and the general within-ceiling
circular part at a direct self-include entered at depth 3 with one file
already on the visiting chain. -/
theorem processIncludes_self_include_fails_witness :
    (∃ e, processIncludes cyc12 (str "<!--#include virtual=\"/a.html\" -->")
        (str "/r/t.html") (str "/r") = .error e ∧
        (isCircularErr e || isMaxDepthErr e) = true) ∧
    processIncludes selfFs (str "<!--#include virtual=\"/s.html\" -->")
      (str "/r/s.html") (str "/r") [str "/r/p.html"] 3 =
      .error (.circular (str "/r/s.html")
        [str "/r/p.html", str "/r/s.html"]) :=
  ⟨processIncludes_self_include_fails.1 cyc12 (str "/r") (str "/r/t.html")
      (str "<!--#include virtual=\"/a.html\" -->")
      [str "/r/a.html", str "/r/b.html", str "/r/c.html", str "/r/d.html",
       str "/r/e.html", str "/r/f.html", str "/r/g.html", str "/r/h.html",
       str "/r/i.html", str "/r/j.html", str "/r/k.html"]
      (by decide) (by rfl) cyc12_chain,
   processIncludes_self_include_fails.2.1 selfFs (str "/r") (str "/r/s.html")
      (str "<!--#include virtual=\"/s.html\" -->")
      (str "<!--#include virtual=\"/s.html\" -->")
      (str "<!--#include virtual=\"/s.html\" -->")
      (str "virtual") (str "/s.html") [] [str "/r/p.html"] 3
      (by decide) (by decide) (by rfl) (by rfl) (by rfl)⟩

/-! ## Dependency tracker (`src/core/dependency-tracker.js`)

JavaScript `Map`s are modelled as association lists in insertion order and
`Set`s as duplicate-free lists in insertion order. -/

/-- `Map.prototype.set`: replace in place, or append a new entry. -/
def mapSet : List (Str × List Str) → Str → List Str → List (Str × List Str)
  | [], k, v => [(k, v)]
  | (k', v') :: rest, k, v =>
    if k' = k then (k, v) :: rest else (k', v') :: mapSet rest k v

/-- `Map.prototype.delete`. -/
def mapDelete : List (Str × List Str) → Str → List (Str × List Str)
  | [], _ => []
  | (k', v') :: rest, k => if k' = k then rest else (k', v') :: mapDelete rest k

/-- `indexOf` + `splice(index, 1)`: drop the first occurrence, if any. -/
def spliceFirst : List Str → Str → List Str
  | [], _ => []
  | y :: rest, x => if y = x then rest else y :: spliceFirst rest x

/-- `Set.prototype.add` (insertion order, no duplicates). -/
def setAdd (s : List Str) (x : Str) : List Str := if x ∈ s then s else s ++ [x]

/-- The `DependencyTracker` state. -/
structure DepTracker where
  /-- page path → include paths it depends on -/
  includesInPage : List (Str × List Str)
  /-- include path → page paths that depend on it -/
  pagesByInclude : List (Str × List Str)
  /-- all paths ever recorded -/
  knownFiles : List Str
  deriving Repr, DecidableEq

/-- `new DependencyTracker()`. -/
def DepTracker.empty : DepTracker := ⟨[], [], []⟩

/-- Body of the `clearPageDependencies` loop: remove one occurrence of the
page from the include's inverse entry, deleting the entry if it becomes
empty. -/
def clearStep (pagePath : Str) (inv : List (Str × List Str))
    (includePath : Str) : List (Str × List Str) :=
  match List.lookup includePath inv with
  | none => inv
  | some pages =>
    let pages2 := spliceFirst pages pagePath
    if pages2 = [] then mapDelete inv includePath
    else mapSet inv includePath pages2

/-- `clearPageDependencies(pagePath)`: for each previously recorded include
of the page, remove the page from the inverse entry and delete the entry if
it becomes empty; then drop the forward entry. -/
def clearPageDependencies (t : DepTracker) (pagePath : Str) : DepTracker :=
  match List.lookup pagePath t.includesInPage with
  | none => t
  | some existingIncludes =>
    { t with
      includesInPage := mapDelete t.includesInPage pagePath,
      pagesByInclude :=
        existingIncludes.foldl (clearStep pagePath) t.pagesByInclude }

/-- Body of the `recordDependencies` reverse-mapping loop: push the page
onto the include's inverse entry (creating it if absent). -/
def recordStep (pagePath : Str) (inv : List (Str × List Str))
    (includePath : Str) : List (Str × List Str) :=
  mapSet inv includePath (((List.lookup includePath inv).getD []) ++ [pagePath])

/-- The map updates of `recordDependencies` after the clear: store the new
forward entry and push the page onto each include's inverse entry — only
when the include list is nonempty. -/
def recordMaps (t1 : DepTracker) (pagePath : Str)
    (includePaths : List Str) : DepTracker :=
  if includePaths ≠ [] then
    { t1 with
      includesInPage := mapSet t1.includesInPage pagePath includePaths,
      pagesByInclude :=
        includePaths.foldl (recordStep pagePath) t1.pagesByInclude }
  else t1

/-- `recordDependencies(pagePath, includePaths)`: clear, update both maps,
then add everything to `knownFiles`. -/
def recordDependencies (t : DepTracker) (pagePath : Str)
    (includePaths : List Str) : DepTracker :=
  let t2 := recordMaps (clearPageDependencies t pagePath) pagePath includePaths
  { t2 with knownFiles := includePaths.foldl setAdd (setAdd t2.knownFiles pagePath) }

/-- `isIncludeFile(filePath)`. -/
def isIncludeFile (t : DepTracker) (filePath : Str) : Bool :=
  (List.lookup filePath t.pagesByInclude).isSome

/-- `getAffectedPages(includePath)`, with an explicit recursion budget: the
JavaScript recursion has no visited set, so it is embedded with fuel;
`none` means the recursion is still descending after `gas` nested calls —
`(∀ gas, … = none)` states that the JavaScript call never returns. -/
def getAffectedPagesGas (t : DepTracker) : Nat → Str → Option (List Str)
  | 0, _ => none
  | gas + 1, includePath =>
    let directlyAffected := (List.lookup includePath t.pagesByInclude).getD []
    let allAffected := directlyAffected.foldl setAdd []
    let includesUsingThis := t.includesInPage.filterMap fun pi =>
      if includePath ∈ pi.2 ∧ isIncludeFile t pi.1 = true then some pi.1 else none
    includesUsingThis.foldl (fun acc nestedInclude =>
      match acc with
      | none => none
      | some s =>
        match getAffectedPagesGas t gas nestedInclude with
        | none => none
        | some nestedAffected => some (nestedAffected.foldl setAdd s))
      (some allAffected)

/-! ## Claim C3 -/

/-- A reachable tracker state whose include-to-include edges form a cycle:
page `/s/p.html` uses include `/s/a.html`, and the include files
`/s/a.html` and `/s/b.html` include each other, so both are include files
(`pagesByInclude` keys) that appear in each other's `includesInPage`
entries. -/
def cycTracker : DepTracker :=
  recordDependencies (recordDependencies (recordDependencies DepTracker.empty
    (str "/s/a.html") [str "/s/b.html"]) (str "/s/b.html") [str "/s/a.html"])
    (str "/s/p.html") [str "/s/a.html"]

/-- C3: `getAffectedPages` does not guard its recursion with a visited set;
on `cycTracker` the call `getAffectedPages('/s/a.html')` recurses to
`'/s/b.html'` and back forever.  Formally: for every finite recursion
budget the fuel-indexed embedding is still descending, i.e. the JavaScript
call never returns (it overflows the call stack). -/
theorem getAffectedPages_cycle_diverges :
    ∀ gas : Nat,
      getAffectedPagesGas cycTracker gas (str "/s/a.html") = none ∧
      getAffectedPagesGas cycTracker gas (str "/s/b.html") = none := by
  intro gas
  induction gas with
  | zero => exact ⟨rfl, rfl⟩
  | succ gas ih =>
    constructor
    · rw [show getAffectedPagesGas cycTracker (gas + 1) (str "/s/a.html") =
          (match getAffectedPagesGas cycTracker gas (str "/s/b.html") with
           | none => none
           | some nested =>
             some (nested.foldl setAdd [str "/s/b.html", str "/s/p.html"]))
          from rfl, ih.2]
    · rw [show getAffectedPagesGas cycTracker (gas + 1) (str "/s/b.html") =
          (match getAffectedPagesGas cycTracker gas (str "/s/a.html") with
           | none => none
           | some nested => some (nested.foldl setAdd [str "/s/a.html"]))
          from rfl, ih.1]

/-! ## Map-operation lemmas for the tracker invariants -/

/-- The key set of a map, in order. -/
def mapKeys (m : List (Str × List Str)) : List Str := m.map Prod.fst

/-- A JavaScript `Map` has pairwise-distinct keys. -/
def KeyNodup (m : List (Str × List Str)) : Prop := (mapKeys m).Nodup

/-- Occurrences of `x` in an optional entry (`none` counts as the empty
array). -/
def optCount (o : Option (List Str)) (x : Str) : Nat := (o.getD []).count x

theorem lookup_mapSet (k : Str) (v : List Str) (q : Str) :
    ∀ (m : List (Str × List Str)),
    List.lookup q (mapSet m k v) = if q = k then some v else List.lookup q m := by
  intro m
  induction m with
  | nil =>
    by_cases hq : q = k
    · simp [mapSet, List.lookup, hq]
    · simp [mapSet, List.lookup, hq, show (q == k) = false from by simpa using hq]
  | cons e rest ih =>
    rcases e with ⟨k', v'⟩
    by_cases hk : k' = k
    · subst hk
      by_cases hq : q = k'
      · simp [mapSet, List.lookup, hq]
      · simp [mapSet, List.lookup, hq,
          show (q == k') = false from by simpa using hq]
    · rw [show mapSet ((k', v') :: rest) k v = (k', v') :: mapSet rest k v from by
        simp [mapSet, hk]]
      by_cases hq : q = k'
      · subst hq
        simp [List.lookup, if_neg (show ¬ q = k from fun h => hk (h ▸ rfl))]
      · simp [List.lookup, show (q == k') = false from by simpa using hq, ih]

theorem lookup_mapDelete_ne {k q : Str} (h : q ≠ k) :
    ∀ (m : List (Str × List Str)),
    List.lookup q (mapDelete m k) = List.lookup q m := by
  intro m
  induction m with
  | nil => rfl
  | cons e rest ih =>
    rcases e with ⟨k', v'⟩
    by_cases hk : k' = k
    · subst hk
      simp [mapDelete, List.lookup, show (q == k') = false from by simpa using h]
    · rw [show mapDelete ((k', v') :: rest) k = (k', v') :: mapDelete rest k from by
        simp [mapDelete, hk]]
      by_cases hq : q = k'
      · simp [List.lookup, hq]
      · simp [List.lookup, show (q == k') = false from by simpa using hq, ih]

theorem mem_mapKeys_mapDelete {q k : Str} : ∀ {m : List (Str × List Str)},
    q ∈ mapKeys (mapDelete m k) → q ∈ mapKeys m := by
  intro m
  induction m with
  | nil => intro h; exact h
  | cons e rest ih =>
    rcases e with ⟨k', v'⟩
    by_cases hk : k' = k
    · subst hk
      rw [show mapDelete ((k', v') :: rest) k' = rest from by simp [mapDelete]]
      intro h
      exact List.mem_cons_of_mem _ h
    · rw [show mapDelete ((k', v') :: rest) k = (k', v') :: mapDelete rest k from by
        simp [mapDelete, hk]]
      intro h
      rcases List.mem_cons.mp h with h1 | h1
      · exact h1 ▸ List.mem_cons_self _ _
      · exact List.mem_cons_of_mem _ (ih h1)

theorem keyNodup_mapDelete {k : Str} : ∀ {m : List (Str × List Str)},
    KeyNodup m → KeyNodup (mapDelete m k) := by
  intro m
  induction m with
  | nil => intro h; exact h
  | cons e rest ih =>
    rcases e with ⟨k', v'⟩
    intro h
    rw [KeyNodup, mapKeys, List.map_cons, List.nodup_cons] at h
    by_cases hk : k' = k
    · subst hk
      rw [show mapDelete ((k', v') :: rest) k' = rest from by simp [mapDelete]]
      exact h.2
    · rw [show mapDelete ((k', v') :: rest) k = (k', v') :: mapDelete rest k from by
        simp [mapDelete, hk]]
      rw [KeyNodup, mapKeys, List.map_cons, List.nodup_cons]
      exact ⟨fun hm => h.1 (mem_mapKeys_mapDelete hm), ih h.2⟩

theorem lookup_mapDelete_self {k : Str} : ∀ {m : List (Str × List Str)},
    KeyNodup m → List.lookup k (mapDelete m k) = none := by
  intro m
  induction m with
  | nil => intro _; rfl
  | cons e rest ih =>
    rcases e with ⟨k', v'⟩
    intro h
    rw [KeyNodup, mapKeys, List.map_cons, List.nodup_cons] at h
    by_cases hk : k' = k
    · subst hk
      rw [show mapDelete ((k', v') :: rest) k' = rest from by simp [mapDelete]]
      exact lookup_not_mem k' rest (fun e he hek =>
        h.1 (by rw [← hek]; exact List.mem_map.mpr ⟨e, he, rfl⟩))
    · rw [show mapDelete ((k', v') :: rest) k = (k', v') :: mapDelete rest k from by
        simp [mapDelete, hk]]
      simp only [List.lookup, show (k == k') = false from by
        simpa using fun he => hk he.symm]
      exact ih h.2

theorem mem_mapKeys_mapSet {q k : Str} {v : List Str} :
    ∀ {m : List (Str × List Str)},
    q ∈ mapKeys (mapSet m k v) → q ∈ mapKeys m ∨ q = k := by
  intro m
  induction m with
  | nil =>
    intro h
    rcases List.mem_cons.mp h with h1 | h1
    · exact Or.inr h1
    · cases h1
  | cons e rest ih =>
    rcases e with ⟨k', v'⟩
    by_cases hk : k' = k
    · subst hk
      rw [show mapSet ((k', v') :: rest) k' v = (k', v) :: rest from by simp [mapSet]]
      intro h
      rcases List.mem_cons.mp h with h1 | h1
      · exact Or.inr h1
      · exact Or.inl (List.mem_cons_of_mem _ h1)
    · rw [show mapSet ((k', v') :: rest) k v = (k', v') :: mapSet rest k v from by
        simp [mapSet, hk]]
      intro h
      rcases List.mem_cons.mp h with h1 | h1
      · exact Or.inl (h1 ▸ List.mem_cons_self _ _)
      · rcases ih h1 with h2 | h2
        · exact Or.inl (List.mem_cons_of_mem _ h2)
        · exact Or.inr h2

theorem keyNodup_mapSet {k : Str} {v : List Str} : ∀ {m : List (Str × List Str)},
    KeyNodup m → KeyNodup (mapSet m k v) := by
  intro m
  induction m with
  | nil => intro _; simp [mapSet, KeyNodup, mapKeys]
  | cons e rest ih =>
    rcases e with ⟨k', v'⟩
    intro h
    rw [KeyNodup, mapKeys, List.map_cons, List.nodup_cons] at h
    by_cases hk : k' = k
    · subst hk
      rw [show mapSet ((k', v') :: rest) k' v = (k', v) :: rest from by simp [mapSet]]
      rw [KeyNodup, mapKeys, List.map_cons, List.nodup_cons]
      exact h
    · rw [show mapSet ((k', v') :: rest) k v = (k', v') :: mapSet rest k v from by
        simp [mapSet, hk]]
      rw [KeyNodup, mapKeys, List.map_cons, List.nodup_cons]
      refine ⟨fun hm => ?_, ih h.2⟩
      rcases mem_mapKeys_mapSet hm with h2 | h2
      · exact h.1 h2
      · exact hk h2

theorem spliceFirst_count_ne {x p : Str} (h : x ≠ p) : ∀ (l : List Str),
    (spliceFirst l p).count x = l.count x := by
  intro l
  induction l with
  | nil => rfl
  | cons y rest ih =>
    by_cases hy : y = p
    · subst hy
      rw [show spliceFirst (y :: rest) y = rest from by simp [spliceFirst]]
      rw [List.count_cons_of_ne h]
    · rw [show spliceFirst (y :: rest) p = y :: spliceFirst rest p from by
        simp [spliceFirst, hy]]
      by_cases hxy : x = y
      · subst hxy
        rw [List.count_cons_self, List.count_cons_self, ih]
      · rw [List.count_cons_of_ne hxy, List.count_cons_of_ne hxy, ih]

theorem spliceFirst_count_self (p : Str) : ∀ (l : List Str),
    (spliceFirst l p).count p = l.count p - 1 := by
  intro l
  induction l with
  | nil => rfl
  | cons y rest ih =>
    by_cases hy : y = p
    · subst hy
      rw [show spliceFirst (y :: rest) y = rest from by simp [spliceFirst]]
      rw [List.count_cons_self]
      omega
    · rw [show spliceFirst (y :: rest) p = y :: spliceFirst rest p from by
        simp [spliceFirst, hy]]
      rw [List.count_cons_of_ne (show p ≠ y from fun h => hy h.symm),
        List.count_cons_of_ne (show p ≠ y from fun h => hy h.symm), ih]


theorem clearStep_facts (p i0 : Str) (inv : List (Str × List Str))
    (hnd : KeyNodup inv) (hne : ∀ i l, List.lookup i inv = some l → l ≠ []) :
    KeyNodup (clearStep p inv i0) ∧
    (∀ i l, List.lookup i (clearStep p inv i0) = some l → l ≠ []) ∧
    (∀ j x, x ≠ p → optCount (List.lookup j (clearStep p inv i0)) x =
      optCount (List.lookup j inv) x) ∧
    (∀ j, optCount (List.lookup j (clearStep p inv i0)) p =
      optCount (List.lookup j inv) p - (if j = i0 then 1 else 0)) := by
  cases hl : List.lookup i0 inv with
  | none =>
    have he : clearStep p inv i0 = inv := by unfold clearStep; rw [hl]
    rw [he]
    refine ⟨hnd, hne, fun _ _ _ => rfl, fun j => ?_⟩
    by_cases hj : j = i0
    · subst hj
      rw [hl, if_pos rfl]
      simp [optCount]
    · rw [if_neg hj]
      omega
  | some pages =>
    by_cases h2 : spliceFirst pages p = []
    · have he : clearStep p inv i0 = mapDelete inv i0 := by
        unfold clearStep; rw [hl]; simp [h2]
      rw [he]
      refine ⟨keyNodup_mapDelete hnd, ?_, ?_, ?_⟩
      · intro i l hli
        by_cases hi : i = i0
        · subst hi; rw [lookup_mapDelete_self hnd] at hli; cases hli
        · rw [lookup_mapDelete_ne hi] at hli; exact hne i l hli
      · intro j x hx
        by_cases hj : j = i0
        · subst hj
          rw [lookup_mapDelete_self hnd, hl]
          show (0 : Nat) = pages.count x
          rw [← spliceFirst_count_ne hx pages, h2]
          rfl
        · rw [lookup_mapDelete_ne hj]
      · intro j
        by_cases hj : j = i0
        · subst hj
          rw [lookup_mapDelete_self hnd, hl, if_pos rfl]
          show (0 : Nat) = pages.count p - 1
          rw [← spliceFirst_count_self p pages, h2]
          rfl
        · rw [lookup_mapDelete_ne hj, if_neg hj]
          omega
    · have he : clearStep p inv i0 = mapSet inv i0 (spliceFirst pages p) := by
        unfold clearStep; rw [hl]; simp [h2]
      rw [he]
      refine ⟨keyNodup_mapSet hnd, ?_, ?_, ?_⟩
      · intro i l hli
        rw [lookup_mapSet] at hli
        by_cases hi : i = i0
        · simp only [if_pos hi] at hli
          cases Option.some.inj hli
          exact h2
        · simp only [if_neg hi] at hli
          exact hne i l hli
      · intro j x hx
        rw [lookup_mapSet]
        by_cases hj : j = i0
        · subst hj
          rw [if_pos rfl, hl]
          show (spliceFirst pages p).count x = pages.count x
          exact spliceFirst_count_ne hx pages
        · rw [if_neg hj]
      · intro j
        rw [lookup_mapSet]
        by_cases hj : j = i0
        · subst hj
          rw [if_pos rfl, hl, if_pos rfl]
          show (spliceFirst pages p).count p = pages.count p - 1
          exact spliceFirst_count_self p pages
        · rw [if_neg hj, if_neg hj]
          omega

theorem count_cons_ite (a b : Str) (l : List Str) :
    (b :: l).count a = l.count a + (if a = b then 1 else 0) := by
  by_cases h : a = b
  · subst h
    rw [List.count_cons_self, if_pos rfl]
  · rw [List.count_cons_of_ne h, if_neg h]
    omega

theorem clearFold_spec (p : Str) : ∀ (ex : List Str) (inv : List (Str × List Str)),
    KeyNodup inv → (∀ i l, List.lookup i inv = some l → l ≠ []) →
    KeyNodup (ex.foldl (clearStep p) inv) ∧
    (∀ i l, List.lookup i (ex.foldl (clearStep p) inv) = some l → l ≠ []) ∧
    (∀ j x, x ≠ p → optCount (List.lookup j (ex.foldl (clearStep p) inv)) x =
      optCount (List.lookup j inv) x) ∧
    (∀ j, optCount (List.lookup j (ex.foldl (clearStep p) inv)) p =
      optCount (List.lookup j inv) p - ex.count j) := by
  intro ex
  induction ex with
  | nil =>
    intro inv hnd hne
    exact ⟨hnd, hne, fun _ _ _ => rfl, fun j => by simp⟩
  | cons i0 rest ih =>
    intro inv hnd hne
    obtain ⟨s1, s2, s3, s4⟩ := clearStep_facts p i0 inv hnd hne
    obtain ⟨f1, f2, f3, f4⟩ := ih (clearStep p inv i0) s1 s2
    rw [List.foldl_cons]
    refine ⟨f1, f2, ?_, ?_⟩
    · intro j x hx
      rw [f3 j x hx, s3 j x hx]
    · intro j
      rw [f4 j, s4 j, count_cons_ite j i0 rest]
      by_cases hj : j = i0
      · rw [if_pos hj]
        omega
      · rw [if_neg hj]
        omega

theorem recordStep_facts (p i0 : Str) (inv : List (Str × List Str))
    (hnd : KeyNodup inv) (hne : ∀ i l, List.lookup i inv = some l → l ≠ []) :
    KeyNodup (recordStep p inv i0) ∧
    (∀ i l, List.lookup i (recordStep p inv i0) = some l → l ≠ []) ∧
    (∀ j x, x ≠ p → optCount (List.lookup j (recordStep p inv i0)) x =
      optCount (List.lookup j inv) x) ∧
    (∀ j, optCount (List.lookup j (recordStep p inv i0)) p =
      optCount (List.lookup j inv) p + (if j = i0 then 1 else 0)) := by
  have he : recordStep p inv i0 =
      mapSet inv i0 (((List.lookup i0 inv).getD []) ++ [p]) := rfl
  rw [he]
  refine ⟨keyNodup_mapSet hnd, ?_, ?_, ?_⟩
  · intro i l hli
    rw [lookup_mapSet] at hli
    by_cases hi : i = i0
    · simp only [if_pos hi] at hli
      cases Option.some.inj hli
      simp
    · simp only [if_neg hi] at hli
      exact hne i l hli
  · intro j x hx
    rw [lookup_mapSet]
    by_cases hj : j = i0
    · subst hj
      rw [if_pos rfl]
      show (((List.lookup j inv).getD []) ++ [p]).count x = _
      rw [List.count_append]
      simp [optCount, List.count_cons, hx]
    · rw [if_neg hj]
  · intro j
    rw [lookup_mapSet]
    by_cases hj : j = i0
    · subst hj
      rw [if_pos rfl, if_pos rfl]
      show (((List.lookup j inv).getD []) ++ [p]).count p = _
      rw [List.count_append]
      simp [optCount, List.count_cons]
    · rw [if_neg hj, if_neg hj]
      omega

theorem recordFold_spec (p : Str) : ∀ (ex : List Str) (inv : List (Str × List Str)),
    KeyNodup inv → (∀ i l, List.lookup i inv = some l → l ≠ []) →
    KeyNodup (ex.foldl (recordStep p) inv) ∧
    (∀ i l, List.lookup i (ex.foldl (recordStep p) inv) = some l → l ≠ []) ∧
    (∀ j x, x ≠ p → optCount (List.lookup j (ex.foldl (recordStep p) inv)) x =
      optCount (List.lookup j inv) x) ∧
    (∀ j, optCount (List.lookup j (ex.foldl (recordStep p) inv)) p =
      optCount (List.lookup j inv) p + ex.count j) := by
  intro ex
  induction ex with
  | nil =>
    intro inv hnd hne
    exact ⟨hnd, hne, fun _ _ _ => rfl, fun j => by simp⟩
  | cons i0 rest ih =>
    intro inv hnd hne
    obtain ⟨s1, s2, s3, s4⟩ := recordStep_facts p i0 inv hnd hne
    obtain ⟨f1, f2, f3, f4⟩ := ih (recordStep p inv i0) s1 s2
    rw [List.foldl_cons]
    refine ⟨f1, f2, ?_, ?_⟩
    · intro j x hx
      rw [f3 j x hx, s3 j x hx]
    · intro j
      rw [f4 j, s4 j, count_cons_ite j i0 rest]
      by_cases hj : j = i0
      · rw [if_pos hj]
        omega
      · rw [if_neg hj]
        omega

/-- The exact-inverse invariant of the `DependencyTracker` maps: both maps
have distinct keys (JavaScript `Map`s), no entry holds an empty array, and
the edge multiset is shared: page `p` lists include `i` exactly as often as
include `i` lists page `p`. -/
def DepInv (t : DepTracker) : Prop :=
  KeyNodup t.includesInPage ∧ KeyNodup t.pagesByInclude ∧
  (∀ p l, List.lookup p t.includesInPage = some l → l ≠ []) ∧
  (∀ i l, List.lookup i t.pagesByInclude = some l → l ≠ []) ∧
  (∀ p i, optCount (List.lookup i t.pagesByInclude) p =
    optCount (List.lookup p t.includesInPage) i)

theorem depInv_empty : DepInv DepTracker.empty := by
  refine ⟨List.nodup_nil, List.nodup_nil, ?_, ?_, ?_⟩
  · intro p l h
    cases h
  · intro i l h
    cases h
  · intro p i
    rfl

theorem depInv_clear (t : DepTracker) (p : Str) (h : DepInv t) :
    DepInv (clearPageDependencies t p) ∧
    List.lookup p (clearPageDependencies t p).includesInPage = none ∧
    (∀ q, q ≠ p → List.lookup q (clearPageDependencies t p).includesInPage =
      List.lookup q t.includesInPage) ∧
    (∀ i x, x ≠ p →
      optCount (List.lookup i (clearPageDependencies t p).pagesByInclude) x =
      optCount (List.lookup i t.pagesByInclude) x) := by
  obtain ⟨hfN, hiN, hfE, hiE, hcnt⟩ := h
  cases hl : List.lookup p t.includesInPage with
  | none =>
    have he : clearPageDependencies t p = t := by
      unfold clearPageDependencies; rw [hl]
    rw [he]
    exact ⟨⟨hfN, hiN, hfE, hiE, hcnt⟩, hl, fun _ _ => rfl, fun _ _ _ => rfl⟩
  | some ex =>
    have hfwd : (clearPageDependencies t p).includesInPage =
        mapDelete t.includesInPage p := by
      unfold clearPageDependencies; rw [hl]
    have hinv : (clearPageDependencies t p).pagesByInclude =
        ex.foldl (clearStep p) t.pagesByInclude := by
      unfold clearPageDependencies; rw [hl]
    obtain ⟨f1, f2, f3, f4⟩ := clearFold_spec p ex t.pagesByInclude hiN hiE
    refine ⟨⟨?_, ?_, ?_, ?_, ?_⟩, ?_, ?_, ?_⟩
    · rw [hfwd]
      exact keyNodup_mapDelete hfN
    · rw [hinv]
      exact f1
    · intro q l hq
      rw [hfwd] at hq
      by_cases hqp : q = p
      · subst hqp
        rw [lookup_mapDelete_self hfN] at hq
        cases hq
      · rw [lookup_mapDelete_ne hqp] at hq
        exact hfE q l hq
    · rw [hinv]
      exact f2
    · intro q i
      rw [hfwd, hinv]
      by_cases hqp : q = p
      · subst hqp
        rw [f4 i, lookup_mapDelete_self hfN, hcnt q i, hl]
        show optCount (some ex) i - ex.count i = optCount none i
        simp [optCount]
      · rw [f3 i q hqp, lookup_mapDelete_ne hqp]
        exact hcnt q i
    · rw [hfwd]
      exact lookup_mapDelete_self hfN
    · intro q hq
      rw [hfwd]
      exact lookup_mapDelete_ne hq t.includesInPage
    · intro i x hx
      rw [hinv]
      exact f3 i x hx

theorem depInv_record (t : DepTracker) (p : Str) (l : List Str) (h : DepInv t) :
    DepInv (recordDependencies t p l) ∧
    List.lookup p (recordDependencies t p l).includesInPage =
      (if l = [] then none else some l) ∧
    (∀ q, q ≠ p → List.lookup q (recordDependencies t p l).includesInPage =
      List.lookup q t.includesInPage) ∧
    (∀ i, optCount (List.lookup i (recordDependencies t p l).pagesByInclude) p =
      l.count i) := by
  obtain ⟨ht1, hlp, hlq, hcq⟩ := depInv_clear t p h
  obtain ⟨h1fN, h1iN, h1fE, h1iE, h1cnt⟩ := ht1
  have hz : ∀ i, optCount
      (List.lookup i (clearPageDependencies t p).pagesByInclude) p = 0 := by
    intro i
    rw [h1cnt p i, hlp]
    rfl
  have hfwd : (recordDependencies t p l).includesInPage =
      (recordMaps (clearPageDependencies t p) p l).includesInPage := rfl
  have hinv : (recordDependencies t p l).pagesByInclude =
      (recordMaps (clearPageDependencies t p) p l).pagesByInclude := rfl
  by_cases hnil : l = []
  · subst hnil
    have he : recordMaps (clearPageDependencies t p) p ([] : List Str) =
        clearPageDependencies t p := rfl
    rw [hfwd, hinv, he]
    refine ⟨⟨h1fN, h1iN, h1fE, h1iE, h1cnt⟩, ?_, hlq, fun i => ?_⟩
    · rw [hlp, if_pos rfl]
    · rw [hz i]
      rfl
  · have he : recordMaps (clearPageDependencies t p) p l =
        { clearPageDependencies t p with
          includesInPage :=
            mapSet (clearPageDependencies t p).includesInPage p l,
          pagesByInclude :=
            l.foldl (recordStep p) (clearPageDependencies t p).pagesByInclude } := by
      unfold recordMaps
      rw [if_pos hnil]
    obtain ⟨r1, r2, r3, r4⟩ :=
      recordFold_spec p l (clearPageDependencies t p).pagesByInclude h1iN h1iE
    have hfwd2 : (recordDependencies t p l).includesInPage =
        mapSet (clearPageDependencies t p).includesInPage p l := by
      rw [hfwd, he]
    have hinv2 : (recordDependencies t p l).pagesByInclude =
        l.foldl (recordStep p) (clearPageDependencies t p).pagesByInclude := by
      rw [hinv, he]
    refine ⟨⟨?_, ?_, ?_, ?_, ?_⟩, ?_, ?_, ?_⟩
    · rw [hfwd2]
      exact keyNodup_mapSet h1fN
    · rw [hinv2]
      exact r1
    · intro q m hq
      rw [hfwd2, lookup_mapSet] at hq
      by_cases hqp : q = p
      · simp only [if_pos hqp] at hq
        cases Option.some.inj hq
        exact hnil
      · simp only [if_neg hqp] at hq
        exact h1fE q m hq
    · rw [hinv2]
      exact r2
    · intro q i
      rw [hfwd2, hinv2, lookup_mapSet]
      by_cases hqp : q = p
      · subst hqp
        rw [if_pos rfl, r4 i, hz i]
        show 0 + l.count i = optCount (some l) i
        rw [Nat.zero_add]
        rfl
      · rw [if_neg hqp, r3 i q hqp]
        exact h1cnt q i
    · rw [hfwd2, lookup_mapSet, if_pos rfl, if_neg hnil]
    · intro q hq
      rw [hfwd2, lookup_mapSet, if_neg hq]
      exact hlq q hq
    · intro i
      rw [hinv2, r4 i, hz i]
      omega

theorem optCount_pos_iff (o : Option (List Str)) (x : Str) :
    0 < optCount o x ↔ ∃ l, o = some l ∧ x ∈ l := by
  cases o with
  | none =>
    constructor
    · intro h
      cases h
    · rintro ⟨l, hl, _⟩
      cases hl
  | some l =>
    constructor
    · intro h
      exact ⟨l, rfl, List.count_pos_iff.mp h⟩
    · rintro ⟨l2, hl, hx⟩
      cases Option.some.inj hl
      exact List.count_pos_iff.mpr hx

/-- C5: the dependency tracker's two maps are exact inverses after every
operation.  The invariant `DepInv` (distinct keys, no empty entries, and
edge-multiset equality between the forward and inverse maps) holds of the
fresh tracker and is preserved by `recordDependencies` and
`clearPageDependencies`; under it, an edge page→include is present in
`includesInPage` if and only if the inverse edge include→page is present in
`pagesByInclude`.  Moreover `recordDependencies` fully replaces a page's
edges: afterwards the page's forward entry is exactly the new include list
(absent when the list is empty, so no stale edge remains), every other
page's entry is untouched, each include's inverse entry mentions the page
exactly as often as the new list mentions the include, and no inverse entry
is ever an empty array (an include whose page set empties is pruned). -/
theorem depTracker_maps_exact_inverse :
    DepInv DepTracker.empty ∧
    (∀ t p l, DepInv t → DepInv (recordDependencies t p l)) ∧
    (∀ t p, DepInv t → DepInv (clearPageDependencies t p)) ∧
    (∀ t, DepInv t → ∀ p i,
      ((∃ l, List.lookup p t.includesInPage = some l ∧ i ∈ l) ↔
       (∃ m, List.lookup i t.pagesByInclude = some m ∧ p ∈ m))) ∧
    (∀ t p l, DepInv t →
      List.lookup p (recordDependencies t p l).includesInPage =
        (if l = [] then none else some l)) ∧
    (∀ t p l q, DepInv t → q ≠ p →
      List.lookup q (recordDependencies t p l).includesInPage =
        List.lookup q t.includesInPage) ∧
    (∀ t p l i, DepInv t →
      optCount (List.lookup i (recordDependencies t p l).pagesByInclude) p =
        l.count i) ∧
    (∀ t, DepInv t → ∀ i m,
      List.lookup i t.pagesByInclude = some m → m ≠ []) := by
  refine ⟨depInv_empty, ?_, ?_, ?_, ?_, ?_, ?_, ?_⟩
  · intro t p l h
    exact (depInv_record t p l h).1
  · intro t p h
    exact (depInv_clear t p h).1
  · intro t h p i
    obtain ⟨-, -, -, -, hcnt⟩ := h
    rw [← optCount_pos_iff, ← optCount_pos_iff, hcnt p i]
  · intro t p l h
    exact (depInv_record t p l h).2.1
  · intro t p l q h hq
    exact (depInv_record t p l h).2.2.1 q hq
  · intro t p l i h
    exact (depInv_record t p l h).2.2.2 i
  · intro t h i m hm
    exact h.2.2.2.1 i m hm

theorem depTracker_maps_exact_inverse_witness :
    DepInv (recordDependencies DepTracker.empty
      (str "/s/index.html") [str "/s/includes/header.html"]) :=
  depTracker_maps_exact_inverse.2.1 DepTracker.empty
    (str "/s/index.html") [str "/s/includes/header.html"] depInv_empty

/-! ## Set-operation lemmas (`Set.prototype.add` / `delete` on the model) -/

theorem mem_setAdd {s : List Str} {x y : Str} :
    y ∈ setAdd s x ↔ y ∈ s ∨ y = x := by
  unfold setAdd
  by_cases hx : x ∈ s
  · rw [if_pos hx]
    constructor
    · exact Or.inl
    · rintro (h | h)
      · exact h
      · exact h ▸ hx
  · rw [if_neg hx, List.mem_append, List.mem_singleton]

theorem setAdd_nodup {s : List Str} {x : Str} (h : s.Nodup) :
    (setAdd s x).Nodup := by
  unfold setAdd
  by_cases hx : x ∈ s
  · rw [if_pos hx]
    exact h
  · rw [if_neg hx]
    refine List.Nodup.append h (List.nodup_singleton x) ?_
    intro a ha hb
    rw [List.mem_singleton] at hb
    exact hx (hb ▸ ha)

theorem spliceFirst_sublist (x : Str) : ∀ l : List Str,
    (spliceFirst l x).Sublist l := by
  intro l
  induction l with
  | nil => exact List.Sublist.refl []
  | cons y rest ih =>
    by_cases hy : y = x
    · rw [show spliceFirst (y :: rest) x = rest from by simp [spliceFirst, hy]]
      exact List.Sublist.cons y (List.Sublist.refl rest)
    · rw [show spliceFirst (y :: rest) x = y :: spliceFirst rest x from by
        simp [spliceFirst, hy]]
      exact List.Sublist.cons₂ y ih

theorem spliceFirst_nodup {x : Str} {l : List Str} (h : l.Nodup) :
    (spliceFirst l x).Nodup :=
  List.Nodup.sublist (spliceFirst_sublist x l) h

theorem mem_spliceFirst_nodup {x y : Str} : ∀ {l : List Str}, l.Nodup →
    (y ∈ spliceFirst l x ↔ y ∈ l ∧ y ≠ x) := by
  intro l
  induction l with
  | nil =>
    intro _
    constructor
    · intro h
      cases h
    · rintro ⟨h, -⟩
      cases h
  | cons z rest ih =>
    intro h
    rw [List.nodup_cons] at h
    by_cases hz : z = x
    · subst hz
      rw [show spliceFirst (z :: rest) z = rest from by simp [spliceFirst]]
      constructor
      · intro hy
        exact ⟨List.mem_cons_of_mem z hy, fun he => h.1 (he ▸ hy)⟩
      · rintro ⟨hy, hne⟩
        rcases List.mem_cons.mp hy with h1 | h1
        · exact absurd h1 hne
        · exact h1
    · rw [show spliceFirst (z :: rest) x = z :: spliceFirst rest x from by
        simp [spliceFirst, hz]]
      constructor
      · intro hy
        rcases List.mem_cons.mp hy with h1 | h1
        · subst h1
          exact ⟨List.mem_cons_self y rest, hz⟩
        · obtain ⟨hm, hne⟩ := (ih h.2).mp h1
          exact ⟨List.mem_cons_of_mem z hm, hne⟩
      · rintro ⟨hy, hne⟩
        rcases List.mem_cons.mp hy with h1 | h1
        · subst h1
          exact List.mem_cons_self y (spliceFirst rest x)
        · exact List.mem_cons_of_mem z ((ih h.2).mpr ⟨h1, hne⟩)

/-! ## Asset tracker (`src/core/asset-tracker.js`)

`assetReferences` is a `Map` from asset path to the array of pages
referencing it, `referencedAssets` a `Set` of all referenced assets, and
`htmlAssetCache` a `Map` from page path to the asset list last extracted
from its HTML. -/

/-- The `AssetTracker` state. -/
structure AssetTracker where
  assetReferences : List (Str × List Str)
  referencedAssets : List Str
  htmlAssetCache : List (Str × List Str)
  deriving Repr, DecidableEq

/-- `new AssetTracker()`. -/
def AssetTracker.new : AssetTracker := ⟨[], [], []⟩

/-- Body of the `clearPageAssetReferences` loop on the pair
(assetReferences, referencedAssets): if the asset has an entry, splice the
page out of it (`indexOf` + `splice`), and when the array becomes empty
delete the asset from both the map and the set. -/
def assetClearStep (pagePath : Str) (s : List (Str × List Str) × List Str)
    (assetPath : Str) : List (Str × List Str) × List Str :=
  match List.lookup assetPath s.1 with
  | none => s
  | some pages =>
    let pages2 := spliceFirst pages pagePath
    if pages2 = [] then (mapDelete s.1 assetPath, spliceFirst s.2 assetPath)
    else (mapSet s.1 assetPath pages2, s.2)

/-- `clearPageAssetReferences(pagePath)`: run the loop over the page's
cached asset list (an empty cached array is truthy, so the branch is taken
whenever the cache has an entry), then delete the cache entry. -/
def clearPageAssetReferences (t : AssetTracker) (pagePath : Str) : AssetTracker :=
  match List.lookup pagePath t.htmlAssetCache with
  | none => t
  | some cachedAssets =>
    let s := cachedAssets.foldl (assetClearStep pagePath)
      (t.assetReferences, t.referencedAssets)
    ⟨s.1, s.2, mapDelete t.htmlAssetCache pagePath⟩

/-- Body of the `recordAssetReferences` loop: ensure the asset has an entry
(`[]` if absent), push the page onto it, and add the asset to the
referenced set. -/
def assetRecordStep (pagePath : Str) (s : List (Str × List Str) × List Str)
    (assetPath : Str) : List (Str × List Str) × List Str :=
  (mapSet s.1 assetPath (((List.lookup assetPath s.1).getD []) ++ [pagePath]),
   setAdd s.2 assetPath)

/-- `recordAssetReferences(pagePath, htmlContent, sourceRoot)`: clear the
page's previous references, record each extracted asset, and cache the
extracted list (unconditionally, even when empty).  The extraction result
(`extractAssetReferences`, a duplicate-free array of resolved asset paths)
enters as the `assets` parameter; nothing below depends on it being
duplicate-free. -/
def recordAssetReferences (t : AssetTracker) (pagePath : Str)
    (assets : List Str) : AssetTracker :=
  let t1 := clearPageAssetReferences t pagePath
  let s := assets.foldl (assetRecordStep pagePath)
    (t1.assetReferences, t1.referencedAssets)
  ⟨s.1, s.2, mapSet t1.htmlAssetCache pagePath assets⟩

/-- `isAssetReferenced(assetPath)`. -/
def isAssetReferenced (t : AssetTracker) (assetPath : Str) : Bool :=
  decide (assetPath ∈ t.referencedAssets)

/-- `getPagesThatReference(assetPath)` (`get(...) || []`). -/
def getPagesThatReference (t : AssetTracker) (assetPath : Str) : List Str :=
  (List.lookup assetPath t.assetReferences).getD []

/-- `removePage(pagePath)` just delegates to `clearPageAssetReferences`. -/
def AssetTracker.removePage (t : AssetTracker) (pagePath : Str) : AssetTracker :=
  clearPageAssetReferences t pagePath

/-- `clear()`: all three containers are emptied. -/
def AssetTracker.clear (_t : AssetTracker) : AssetTracker := ⟨[], [], []⟩

/-! ## Claim C10 -/

/-- The relation between `assetReferences` and `referencedAssets`: distinct
map keys, duplicate-free set, the set holds exactly the keys of the map,
and no entry is an empty array. -/
def RefInv (m : List (Str × List Str)) (r : List Str) : Prop :=
  KeyNodup m ∧ r.Nodup ∧
  (∀ a, a ∈ r ↔ (List.lookup a m).isSome = true) ∧
  (∀ a pages, List.lookup a m = some pages → pages ≠ [])

theorem assetClearStep_facts (p a0 : Str)
    (s : List (Str × List Str) × List Str) (h : RefInv s.1 s.2) :
    RefInv (assetClearStep p s a0).1 (assetClearStep p s a0).2 ∧
    (∀ j x, x ≠ p → optCount (List.lookup j (assetClearStep p s a0).1) x =
      optCount (List.lookup j s.1) x) ∧
    (∀ j, optCount (List.lookup j (assetClearStep p s a0).1) p =
      optCount (List.lookup j s.1) p - (if j = a0 then 1 else 0)) := by
  obtain ⟨hK, hN, hS, hE⟩ := h
  cases hl : List.lookup a0 s.1 with
  | none =>
    have he1 : (assetClearStep p s a0).1 = s.1 := by
      unfold assetClearStep; rw [hl]
    have he2 : (assetClearStep p s a0).2 = s.2 := by
      unfold assetClearStep; rw [hl]
    rw [he1, he2]
    refine ⟨⟨hK, hN, hS, hE⟩, fun _ _ _ => rfl, fun j => ?_⟩
    by_cases hj : j = a0
    · subst hj
      rw [hl, if_pos rfl]
      simp [optCount]
    · rw [if_neg hj]
      omega
  | some pages =>
    by_cases h2 : spliceFirst pages p = []
    · have he1 : (assetClearStep p s a0).1 = mapDelete s.1 a0 := by
        unfold assetClearStep; rw [hl]; simp [h2]
      have he2 : (assetClearStep p s a0).2 = spliceFirst s.2 a0 := by
        unfold assetClearStep; rw [hl]; simp [h2]
      rw [he1, he2]
      refine ⟨⟨keyNodup_mapDelete hK, spliceFirst_nodup hN, ?_, ?_⟩, ?_, ?_⟩
      · intro a
        rw [mem_spliceFirst_nodup hN]
        by_cases ha : a = a0
        · subst ha
          rw [lookup_mapDelete_self hK]
          simp
        · rw [lookup_mapDelete_ne ha]
          simp [hS a, ha]
      · intro a m hm
        by_cases ha : a = a0
        · subst ha
          rw [lookup_mapDelete_self hK] at hm
          cases hm
        · rw [lookup_mapDelete_ne ha] at hm
          exact hE a m hm
      · intro j x hx
        by_cases hj : j = a0
        · subst hj
          rw [lookup_mapDelete_self hK, hl]
          show (0 : Nat) = pages.count x
          rw [← spliceFirst_count_ne hx pages, h2]
          rfl
        · rw [lookup_mapDelete_ne hj]
      · intro j
        by_cases hj : j = a0
        · subst hj
          rw [lookup_mapDelete_self hK, hl, if_pos rfl]
          show (0 : Nat) = pages.count p - 1
          rw [← spliceFirst_count_self p pages, h2]
          rfl
        · rw [lookup_mapDelete_ne hj, if_neg hj]
          omega
    · have he1 : (assetClearStep p s a0).1 = mapSet s.1 a0 (spliceFirst pages p) := by
        unfold assetClearStep; rw [hl]; simp [h2]
      have he2 : (assetClearStep p s a0).2 = s.2 := by
        unfold assetClearStep; rw [hl]; simp [h2]
      rw [he1, he2]
      refine ⟨⟨keyNodup_mapSet hK, hN, ?_, ?_⟩, ?_, ?_⟩
      · intro a
        rw [lookup_mapSet]
        by_cases ha : a = a0
        · subst ha
          rw [if_pos rfl]
          constructor
          · intro _
            rfl
          · intro _
            exact (hS a).mpr (by rw [hl]; rfl)
        · rw [if_neg ha]
          exact hS a
      · intro a m hm
        rw [lookup_mapSet] at hm
        by_cases ha : a = a0
        · simp only [if_pos ha] at hm
          cases Option.some.inj hm
          exact h2
        · simp only [if_neg ha] at hm
          exact hE a m hm
      · intro j x hx
        rw [lookup_mapSet]
        by_cases hj : j = a0
        · subst hj
          rw [if_pos rfl, hl]
          show (spliceFirst pages p).count x = pages.count x
          exact spliceFirst_count_ne hx pages
        · rw [if_neg hj]
      · intro j
        rw [lookup_mapSet]
        by_cases hj : j = a0
        · subst hj
          rw [if_pos rfl, hl, if_pos rfl]
          show (spliceFirst pages p).count p = pages.count p - 1
          exact spliceFirst_count_self p pages
        · rw [if_neg hj, if_neg hj]
          omega

theorem assetRecordStep_facts (p a0 : Str)
    (s : List (Str × List Str) × List Str) (h : RefInv s.1 s.2) :
    RefInv (assetRecordStep p s a0).1 (assetRecordStep p s a0).2 ∧
    (∀ j x, x ≠ p → optCount (List.lookup j (assetRecordStep p s a0).1) x =
      optCount (List.lookup j s.1) x) ∧
    (∀ j, optCount (List.lookup j (assetRecordStep p s a0).1) p =
      optCount (List.lookup j s.1) p + (if j = a0 then 1 else 0)) := by
  obtain ⟨hK, hN, hS, hE⟩ := h
  have he1 : (assetRecordStep p s a0).1 =
      mapSet s.1 a0 (((List.lookup a0 s.1).getD []) ++ [p]) := rfl
  have he2 : (assetRecordStep p s a0).2 = setAdd s.2 a0 := rfl
  rw [he1, he2]
  refine ⟨⟨keyNodup_mapSet hK, setAdd_nodup hN, ?_, ?_⟩, ?_, ?_⟩
  · intro a
    rw [mem_setAdd, lookup_mapSet]
    by_cases ha : a = a0
    · subst ha
      simp
    · rw [if_neg ha]
      simp [hS a, ha]
  · intro a m hm
    rw [lookup_mapSet] at hm
    by_cases ha : a = a0
    · simp only [if_pos ha] at hm
      cases Option.some.inj hm
      simp
    · simp only [if_neg ha] at hm
      exact hE a m hm
  · intro j x hx
    rw [lookup_mapSet]
    by_cases hj : j = a0
    · subst hj
      rw [if_pos rfl]
      show (((List.lookup j s.1).getD []) ++ [p]).count x = _
      rw [List.count_append]
      simp [optCount, List.count_cons, hx]
    · rw [if_neg hj]
  · intro j
    rw [lookup_mapSet]
    by_cases hj : j = a0
    · subst hj
      rw [if_pos rfl, if_pos rfl]
      show (((List.lookup j s.1).getD []) ++ [p]).count p = _
      rw [List.count_append]
      simp [optCount, List.count_cons]
    · rw [if_neg hj, if_neg hj]
      omega

theorem assetClearFold_spec (p : Str) : ∀ (ex : List Str)
    (s : List (Str × List Str) × List Str), RefInv s.1 s.2 →
    RefInv (ex.foldl (assetClearStep p) s).1 (ex.foldl (assetClearStep p) s).2 ∧
    (∀ j x, x ≠ p →
      optCount (List.lookup j (ex.foldl (assetClearStep p) s).1) x =
        optCount (List.lookup j s.1) x) ∧
    (∀ j, optCount (List.lookup j (ex.foldl (assetClearStep p) s).1) p =
      optCount (List.lookup j s.1) p - ex.count j) := by
  intro ex
  induction ex with
  | nil =>
    intro s h
    exact ⟨h, fun _ _ _ => rfl, fun j => by simp⟩
  | cons a0 rest ih =>
    intro s h
    obtain ⟨s1, s2, s3⟩ := assetClearStep_facts p a0 s h
    obtain ⟨f1, f2, f3⟩ := ih (assetClearStep p s a0) s1
    rw [List.foldl_cons]
    refine ⟨f1, ?_, ?_⟩
    · intro j x hx
      rw [f2 j x hx, s2 j x hx]
    · intro j
      rw [f3 j, s3 j, count_cons_ite j a0 rest]
      by_cases hj : j = a0
      · rw [if_pos hj]
        omega
      · rw [if_neg hj]
        omega

theorem assetRecordFold_spec (p : Str) : ∀ (ex : List Str)
    (s : List (Str × List Str) × List Str), RefInv s.1 s.2 →
    RefInv (ex.foldl (assetRecordStep p) s).1 (ex.foldl (assetRecordStep p) s).2 ∧
    (∀ j x, x ≠ p →
      optCount (List.lookup j (ex.foldl (assetRecordStep p) s).1) x =
        optCount (List.lookup j s.1) x) ∧
    (∀ j, optCount (List.lookup j (ex.foldl (assetRecordStep p) s).1) p =
      optCount (List.lookup j s.1) p + ex.count j) := by
  intro ex
  induction ex with
  | nil =>
    intro s h
    exact ⟨h, fun _ _ _ => rfl, fun j => by simp⟩
  | cons a0 rest ih =>
    intro s h
    obtain ⟨s1, s2, s3⟩ := assetRecordStep_facts p a0 s h
    obtain ⟨f1, f2, f3⟩ := ih (assetRecordStep p s a0) s1
    rw [List.foldl_cons]
    refine ⟨f1, ?_, ?_⟩
    · intro j x hx
      rw [f2 j x hx, s2 j x hx]
    · intro j
      rw [f3 j, s3 j, count_cons_ite j a0 rest]
      by_cases hj : j = a0
      · rw [if_pos hj]
        omega
      · rw [if_neg hj]
        omega

/-- The full `AssetTracker` invariant: `RefInv` on the reference map and
set, distinct cache keys, and the edge-multiset link between
`assetReferences` and `htmlAssetCache`. -/
def AssetInv (t : AssetTracker) : Prop :=
  RefInv t.assetReferences t.referencedAssets ∧
  KeyNodup t.htmlAssetCache ∧
  (∀ p a, optCount (List.lookup a t.assetReferences) p =
    optCount (List.lookup p t.htmlAssetCache) a)

theorem assetInv_new : AssetInv AssetTracker.new := by
  refine ⟨⟨List.nodup_nil, List.nodup_nil, ?_, ?_⟩, List.nodup_nil, ?_⟩
  · intro a
    constructor
    · intro h
      cases h
    · intro h
      cases h
  · intro a m hm
    cases hm
  · intro p a
    rfl

theorem assetInv_clearPage (t : AssetTracker) (p : Str) (h : AssetInv t) :
    AssetInv (clearPageAssetReferences t p) ∧
    List.lookup p (clearPageAssetReferences t p).htmlAssetCache = none ∧
    (∀ q, q ≠ p → List.lookup q (clearPageAssetReferences t p).htmlAssetCache =
      List.lookup q t.htmlAssetCache) ∧
    (∀ a x, x ≠ p →
      optCount (List.lookup a (clearPageAssetReferences t p).assetReferences) x =
      optCount (List.lookup a t.assetReferences) x) := by
  obtain ⟨hR, hC, hcnt⟩ := h
  cases hl : List.lookup p t.htmlAssetCache with
  | none =>
    have he : clearPageAssetReferences t p = t := by
      unfold clearPageAssetReferences; rw [hl]
    rw [he]
    refine ⟨⟨hR, hC, hcnt⟩, ?_, fun _ _ => rfl, fun _ _ _ => rfl⟩
    rw [hl]
  | some ex =>
    have hm : (clearPageAssetReferences t p).assetReferences =
        (ex.foldl (assetClearStep p) (t.assetReferences, t.referencedAssets)).1 := by
      unfold clearPageAssetReferences; rw [hl]
    have hr : (clearPageAssetReferences t p).referencedAssets =
        (ex.foldl (assetClearStep p) (t.assetReferences, t.referencedAssets)).2 := by
      unfold clearPageAssetReferences; rw [hl]
    have hc : (clearPageAssetReferences t p).htmlAssetCache =
        mapDelete t.htmlAssetCache p := by
      unfold clearPageAssetReferences; rw [hl]
    obtain ⟨f1, f2, f3⟩ :=
      assetClearFold_spec p ex (t.assetReferences, t.referencedAssets) hR
    refine ⟨⟨?_, ?_, ?_⟩, ?_, ?_, ?_⟩
    · rw [hm, hr]
      exact f1
    · rw [hc]
      exact keyNodup_mapDelete hC
    · intro q a
      rw [hm, hc]
      by_cases hqp : q = p
      · subst hqp
        rw [f3 a, lookup_mapDelete_self hC, hcnt q a, hl]
        show optCount (some ex) a - ex.count a = optCount none a
        simp [optCount]
      · rw [f2 a q hqp, lookup_mapDelete_ne hqp]
        exact hcnt q a
    · rw [hc]
      exact lookup_mapDelete_self hC
    · intro q hq
      rw [hc]
      exact lookup_mapDelete_ne hq t.htmlAssetCache
    · intro a x hx
      rw [hm]
      exact f2 a x hx

theorem assetInv_record (t : AssetTracker) (p : Str) (assets : List Str)
    (h : AssetInv t) :
    AssetInv (recordAssetReferences t p assets) ∧
    List.lookup p (recordAssetReferences t p assets).htmlAssetCache =
      some assets ∧
    (∀ q, q ≠ p →
      List.lookup q (recordAssetReferences t p assets).htmlAssetCache =
      List.lookup q t.htmlAssetCache) ∧
    (∀ a, optCount
        (List.lookup a (recordAssetReferences t p assets).assetReferences) p =
      assets.count a) := by
  obtain ⟨ht1, hlp, hlq, hcq⟩ := assetInv_clearPage t p h
  obtain ⟨h1R, h1C, h1cnt⟩ := ht1
  have hz : ∀ a, optCount
      (List.lookup a (clearPageAssetReferences t p).assetReferences) p = 0 := by
    intro a
    rw [h1cnt p a, hlp]
    rfl
  have hm : (recordAssetReferences t p assets).assetReferences =
      (assets.foldl (assetRecordStep p)
        ((clearPageAssetReferences t p).assetReferences,
         (clearPageAssetReferences t p).referencedAssets)).1 := rfl
  have hr : (recordAssetReferences t p assets).referencedAssets =
      (assets.foldl (assetRecordStep p)
        ((clearPageAssetReferences t p).assetReferences,
         (clearPageAssetReferences t p).referencedAssets)).2 := rfl
  have hc : (recordAssetReferences t p assets).htmlAssetCache =
      mapSet (clearPageAssetReferences t p).htmlAssetCache p assets := rfl
  obtain ⟨f1, f2, f3⟩ := assetRecordFold_spec p assets
    ((clearPageAssetReferences t p).assetReferences,
     (clearPageAssetReferences t p).referencedAssets) h1R
  refine ⟨⟨?_, ?_, ?_⟩, ?_, ?_, ?_⟩
  · rw [hm, hr]
    exact f1
  · rw [hc]
    exact keyNodup_mapSet h1C
  · intro q a
    rw [hm, hc, lookup_mapSet]
    by_cases hqp : q = p
    · subst hqp
      rw [if_pos rfl, f3 a, hz a]
      show 0 + assets.count a = optCount (some assets) a
      rw [Nat.zero_add]
      rfl
    · rw [if_neg hqp, f2 a q hqp]
      exact h1cnt q a
  · rw [hc, lookup_mapSet, if_pos rfl]
  · intro q hq
    rw [hc, lookup_mapSet, if_neg hq]
    exact hlq q hq
  · intro a
    rw [hm, f3 a, hz a]
    omega

theorem isAssetReferenced_iff_pages {t : AssetTracker} (h : AssetInv t)
    (a : Str) :
    isAssetReferenced t a = true ↔ getPagesThatReference t a ≠ [] := by
  obtain ⟨⟨hK, hN, hS, hE⟩, -, -⟩ := h
  constructor
  · intro hb
    have hmem : a ∈ t.referencedAssets := of_decide_eq_true hb
    have hiS := (hS a).mp hmem
    cases hl : List.lookup a t.assetReferences with
    | none =>
      rw [hl] at hiS
      cases hiS
    | some m =>
      have hne := hE a m hl
      show (List.lookup a t.assetReferences).getD [] ≠ []
      rw [hl]
      exact hne
  · intro hne
    cases hl : List.lookup a t.assetReferences with
    | none =>
      exfalso
      apply hne
      show (List.lookup a t.assetReferences).getD [] = []
      rw [hl]
      rfl
    | some m =>
      have hmem := (hS a).mpr (by rw [hl]; rfl)
      exact decide_eq_true hmem

/-- C10: `AssetTracker` maintains the invariant — preserved by
`recordAssetReferences`, `clearPageAssetReferences`, `removePage` and
`clear`, and true of the fresh tracker — that `referencedAssets` is exactly
the key set of `assetReferences` and no entry of `assetReferences` is an
empty array; consequently `isAssetReferenced(a)` is `true` exactly when
`getPagesThatReference(a)` is non-empty. -/
theorem assetTracker_referenced_iff :
    AssetInv AssetTracker.new ∧
    (∀ t p assets, AssetInv t → AssetInv (recordAssetReferences t p assets)) ∧
    (∀ t p, AssetInv t → AssetInv (clearPageAssetReferences t p)) ∧
    (∀ t p, AssetInv t → AssetInv (AssetTracker.removePage t p)) ∧
    (∀ t, AssetInv t → AssetInv (AssetTracker.clear t)) ∧
    (∀ t, AssetInv t → ∀ a,
      (a ∈ t.referencedAssets ↔ (List.lookup a t.assetReferences).isSome = true)) ∧
    (∀ t, AssetInv t → ∀ a,
      (isAssetReferenced t a = true ↔ getPagesThatReference t a ≠ [])) := by
  refine ⟨assetInv_new, ?_, ?_, ?_, ?_, ?_, ?_⟩
  · intro t p assets h
    exact (assetInv_record t p assets h).1
  · intro t p h
    exact (assetInv_clearPage t p h).1
  · intro t p h
    exact (assetInv_clearPage t p h).1
  · intro t h
    exact assetInv_new
  · intro t h a
    exact (h.1.2.2.1) a
  · intro t h a
    exact isAssetReferenced_iff_pages h a

theorem assetTracker_referenced_iff_witness :
    AssetInv (recordAssetReferences AssetTracker.new (str "/s/index.html")
      [str "/s/css/site.css"]) :=
  assetTracker_referenced_iff.2.1 AssetTracker.new (str "/s/index.html")
    [str "/s/css/site.css"] assetInv_new

/-! ## File classification (`src/unnamed/part_008`) and the orchestrator
content pass (`src/core/file-processor.js`, `build`) -/

/-- Node `path.basename` (posix): trailing separators are ignored, then the
portion after the last separator is returned. -/
def basename (p : Str) : Str :=
  let q := (p.reverse.dropWhile (· = '/')).reverse
  (q.reverse.takeWhile (· ≠ '/')).reverse

/-- Node `path.extname` (posix): from the last `'.'` of the basename to the
end; a dot in first position (dotfile) or no dot at all gives `""`. -/
def extname (p : Str) : Str :=
  let b := basename p
  let suf := b.reverse.takeWhile (· ≠ '.')
  if suf.length = b.length then []
  else if b.length - 1 - suf.length = 0 then []
  else '.' :: suf.reverse

/-- `getFileExtension(filePath)`: `path.extname(filePath).toLowerCase()`. -/
def getFileExtension (p : Str) : Str := (extname p).map Char.toLower

/-- `isHtmlFile(filePath)`. -/
def isHtmlFile (p : Str) : Bool := decide (getFileExtension p = str ".html")

/-- `isPartialFile(filePath, includesDir)`: in the includes directory
(by parent-directory name or an infix `/includes/` test) or the file name
starts with an underscore. -/
def isPartialFile (filePath : Str) (includesDir : Str) : Bool :=
  let fileName := basename filePath
  let dirName := basename (dirname filePath)
  if dirName = includesDir ∨
      (str "/" ++ includesDir ++ str "/") <:+: filePath then true
  else if fileName.head? = some '_' then true
  else false

/-- Errors surfacing from `processHtmlFile`: the initial read failing
(`FileSystemError('read', ...)`) or an error thrown out of
`processIncludes`. -/
inductive BuildErr where
  | fsRead (filePath : Str)
  | inc (e : IncludeError)
  deriving Repr, DecidableEq

/-- `processHtmlFile(filePath, sourceRoot, outputRoot, headSnippet,
dependencyTracker, assetTracker)`, modelled on its content path: read the
file, expand includes, and produce the content written to the output tree.
The build is modelled without a head snippet (`getHeadSnippet` returns
`null` when the project has none, making `finalContent = processedContent`);
the dependency/asset tracker calls mutate trackers only and never change
the content or the thrown error. -/
def processHtmlFile (fs : FileSys) (sourceRoot filePath : Str) :
    Except BuildErr Str :=
  match readFile fs filePath with
  | none => .error (.fsRead filePath)
  | some htmlContent =>
    match processIncludes fs htmlContent filePath sourceRoot with
    | .error e => .error (.inc e)
    | .ok processedContent => .ok processedContent

/-- The content-file loop of `build()`: HTML partials are skipped, HTML
pages are processed inside `try`/`catch` — a failure is recorded in
`results.errors` as `{file, error}` and the loop continues — and other
files are handled by the Markdown branch or not at all (outside the
modelled slice, which per the spec covers the HTML include pipeline).
Returns the written outputs and the recorded errors, in source order. -/
def buildContentPass (fs : FileSys) (sourceRoot includesDir : Str) :
    List Str → List (Str × Str) × List (Str × BuildErr)
  | [] => ([], [])
  | f :: files =>
    if isHtmlFile f = true then
      if isPartialFile f includesDir = true then
        buildContentPass fs sourceRoot includesDir files
      else
        match processHtmlFile fs sourceRoot f with
        | .ok out =>
          ((f, out) :: (buildContentPass fs sourceRoot includesDir files).1,
           (buildContentPass fs sourceRoot includesDir files).2)
        | .error e =>
          ((buildContentPass fs sourceRoot includesDir files).1,
           (f, e) :: (buildContentPass fs sourceRoot includesDir files).2)
    else buildContentPass fs sourceRoot includesDir files

/-- Per-file outcome of the content pass, output side (the characterization
the claim asserts: a file appears in the output exactly when it is a
non-partial HTML file whose whole expansion succeeded). -/
def buildOutFn (fs : FileSys) (sourceRoot includesDir : Str) (f : Str) :
    Option (Str × Str) :=
  if isHtmlFile f = true then
    if isPartialFile f includesDir = true then none
    else
      match processHtmlFile fs sourceRoot f with
      | .ok out => some (f, out)
      | .error _ => none
  else none

/-- Per-file outcome of the content pass, error side. -/
def buildErrFn (fs : FileSys) (sourceRoot includesDir : Str) (f : Str) :
    Option (Str × BuildErr) :=
  if isHtmlFile f = true then
    if isPartialFile f includesDir = true then none
    else
      match processHtmlFile fs sourceRoot f with
      | .ok _ => none
      | .error e => some (f, e)
  else none

theorem buildContentPass_fst (fs : FileSys) (root incl : Str) :
    ∀ files : List Str, (buildContentPass fs root incl files).1 =
      files.filterMap (buildOutFn fs root incl) := by
  intro files
  induction files with
  | nil => rfl
  | cons f files ih =>
    have hstep : buildContentPass fs root incl (f :: files) =
        (if isHtmlFile f = true then
          if isPartialFile f incl = true then buildContentPass fs root incl files
          else
            match processHtmlFile fs root f with
            | .ok out =>
              ((f, out) :: (buildContentPass fs root incl files).1,
               (buildContentPass fs root incl files).2)
            | .error e =>
              ((buildContentPass fs root incl files).1,
               (f, e) :: (buildContentPass fs root incl files).2)
        else buildContentPass fs root incl files) := rfl
    by_cases hh : isHtmlFile f = true
    · by_cases hp : isPartialFile f incl = true
      · have ho : buildOutFn fs root incl f = none := by
          unfold buildOutFn; rw [if_pos hh, if_pos hp]
        rw [hstep, if_pos hh, if_pos hp, List.filterMap_cons_none ho]
        exact ih
      · cases hout : processHtmlFile fs root f with
        | ok out =>
          have ho : buildOutFn fs root incl f = some (f, out) := by
            unfold buildOutFn
            rw [if_pos hh, if_neg hp]
            simp only [hout]
          rw [hstep, if_pos hh, if_neg hp, List.filterMap_cons_some ho]
          simp only [hout]
          exact congrArg (List.cons (f, out)) ih
        | error e =>
          have ho : buildOutFn fs root incl f = none := by
            unfold buildOutFn
            rw [if_pos hh, if_neg hp]
            simp only [hout]
          rw [hstep, if_pos hh, if_neg hp, List.filterMap_cons_none ho]
          simp only [hout]
          exact ih
    · have ho : buildOutFn fs root incl f = none := by
        unfold buildOutFn; rw [if_neg hh]
      rw [hstep, if_neg hh, List.filterMap_cons_none ho]
      exact ih

theorem buildContentPass_snd (fs : FileSys) (root incl : Str) :
    ∀ files : List Str, (buildContentPass fs root incl files).2 =
      files.filterMap (buildErrFn fs root incl) := by
  intro files
  induction files with
  | nil => rfl
  | cons f files ih =>
    have hstep : buildContentPass fs root incl (f :: files) =
        (if isHtmlFile f = true then
          if isPartialFile f incl = true then buildContentPass fs root incl files
          else
            match processHtmlFile fs root f with
            | .ok out =>
              ((f, out) :: (buildContentPass fs root incl files).1,
               (buildContentPass fs root incl files).2)
            | .error e =>
              ((buildContentPass fs root incl files).1,
               (f, e) :: (buildContentPass fs root incl files).2)
        else buildContentPass fs root incl files) := rfl
    by_cases hh : isHtmlFile f = true
    · by_cases hp : isPartialFile f incl = true
      · have ho : buildErrFn fs root incl f = none := by
          unfold buildErrFn; rw [if_pos hh, if_pos hp]
        rw [hstep, if_pos hh, if_pos hp, List.filterMap_cons_none ho]
        exact ih
      · cases hout : processHtmlFile fs root f with
        | ok out =>
          have ho : buildErrFn fs root incl f = none := by
            unfold buildErrFn
            rw [if_pos hh, if_neg hp]
            simp only [hout]
          rw [hstep, if_pos hh, if_neg hp, List.filterMap_cons_none ho]
          simp only [hout]
          exact ih
        | error e =>
          have ho : buildErrFn fs root incl f = some (f, e) := by
            unfold buildErrFn
            rw [if_pos hh, if_neg hp]
            simp only [hout]
          rw [hstep, if_pos hh, if_neg hp, List.filterMap_cons_some ho]
          simp only [hout]
          exact congrArg (List.cons (f, e)) ih
    · have ho : buildErrFn fs root incl f = none := by
        unfold buildErrFn; rw [if_neg hh]
      rw [hstep, if_neg hh, List.filterMap_cons_none ho]
      exact ih

/-- C4: a directive-level failure (resolution error, missing target, or any
error thrown while expanding the include tree) aborts the expansion of the
whole containing top-level document — `processHtmlFile` surfaces the error
rather than producing content — and the orchestrator records `{file, error}`
for that file and continues with the remaining files: the content pass
produces exactly the successful expansions as outputs and the failed files
as recorded errors, and a file whose expansion failed contributes no output
at all (no inline error marker stands in for the directive). -/
theorem directive_errors_abort_file :
    (∀ fs root incl files,
      (buildContentPass fs root incl files).1 =
        files.filterMap (buildOutFn fs root incl) ∧
      (buildContentPass fs root incl files).2 =
        files.filterMap (buildErrFn fs root incl)) ∧
    (∀ fs root f content e, readFile fs f = some content →
      processIncludes fs content f root = .error e →
      processHtmlFile fs root f = .error (.inc e)) ∧
    (∀ fs root incl files f e, f ∈ files → isHtmlFile f = true →
      isPartialFile f incl = false → processHtmlFile fs root f = .error e →
      ((f, e) ∈ (buildContentPass fs root incl files).2 ∧
       ∀ out, (f, out) ∉ (buildContentPass fs root incl files).1)) := by
  refine ⟨?_, ?_, ?_⟩
  · intro fs root incl files
    exact ⟨buildContentPass_fst fs root incl files,
      buildContentPass_snd fs root incl files⟩
  · intro fs root f content e hread herr
    unfold processHtmlFile
    rw [hread]
    show (match processIncludes fs content f root with
      | Except.error e => Except.error (BuildErr.inc e)
      | Except.ok processedContent => Except.ok processedContent) =
      Except.error (BuildErr.inc e)
    rw [herr]
  · intro fs root incl files f e hmem hh hp herr
    constructor
    · rw [buildContentPass_snd]
      refine List.mem_filterMap.mpr ⟨f, hmem, ?_⟩
      unfold buildErrFn
      rw [if_pos hh,
        if_neg (show ¬ isPartialFile f incl = true from by rw [hp]; intro h; cases h),
        herr]
    · intro out hmemout
      rw [buildContentPass_fst] at hmemout
      obtain ⟨g, hg, hfn⟩ := List.mem_filterMap.mp hmemout
      unfold buildOutFn at hfn
      by_cases hgh : isHtmlFile g = true
      · rw [if_pos hgh] at hfn
        by_cases hgp : isPartialFile g incl = true
        · rw [if_pos hgp] at hfn
          cases hfn
        · rw [if_neg hgp] at hfn
          cases hout : processHtmlFile fs root g with
          | ok o =>
            simp only [hout] at hfn
            have hpair := Option.some.inj hfn
            have hgf : g = f := congrArg Prod.fst hpair
            rw [hgf, herr] at hout
            cases hout
          | error e2 =>
            simp only [hout] at hfn
            cases hfn
      · rw [if_neg hgh] at hfn
        cases hfn

/-- A source tree whose only page contains a directive whose target file
does not exist. -/
def fsC4 : FileSys :=
  [(str "/r/p.html", str "A<!--#include virtual=\"missing.html\" -->B")]

theorem directive_errors_abort_file_witness :
    (str "/r/p.html",
      BuildErr.inc (IncludeError.includeNotFound (str "missing.html")
        (str "/r/p.html"))) ∈
      (buildContentPass fsC4 (str "/r") (str "includes") [str "/r/p.html"]).2 :=
  (directive_errors_abort_file.2.2 fsC4 (str "/r") (str "includes")
    [str "/r/p.html"] (str "/r/p.html")
    (BuildErr.inc (IncludeError.includeNotFound (str "missing.html")
      (str "/r/p.html")))
    (List.mem_cons_self _ _) (by rfl) (by rfl) (by rfl)).1

/-! ## Claim C8: `getFilesToRebuild` (`src/core/file-processor.js`) -/

/-- A JavaScript runtime error, as distinct from the build's own error
classes: calling a property that is not a function raises `TypeError`. -/
inductive JsError where
  | typeError (msg : Str)
  deriving Repr, DecidableEq

/-- The changed-file branch of `getFilesToRebuild(sourceRoot, changedFile,
dependencyTracker)`.  The partial-page branch calls
`dependencyTracker.getDependentPages(resolvedChangedFile)`, but
`DependencyTracker` (src/unnamed/part_010) defines no method of that name
anywhere in the repository — the only traversal it offers is
`getAffectedPages` — so the property access yields `undefined` and the call
raises `TypeError: dependencyTracker.getDependentPages is not a function`
before any page is added to the rebuild set. -/
def getFilesToRebuild (t : DepTracker) (changedFile : Str) :
    Except JsError (List Str) :=
  if isHtmlFile (resolve1 changedFile) = true then
    if isPartialFile (resolve1 changedFile) (str "includes") = true then
      .error (.typeError
        (str "dependencyTracker.getDependentPages is not a function"))
    else .ok [resolve1 changedFile]
  else .ok [resolve1 changedFile]

/-- C8: an incremental build for a changed partial HTML file never rebuilds
the affected pages: the partial branch of `getFilesToRebuild` calls the
nonexistent `dependencyTracker.getDependentPages` and throws `TypeError`
for every tracker state — even one on which the claimed behaviour would be
to rebuild zero pages — instead of consulting `getAffectedPages` and
rebuilding the affected set. -/
theorem incremental_partial_rebuild_throws :
    (∀ t changedFile, isHtmlFile (resolve1 changedFile) = true →
      isPartialFile (resolve1 changedFile) (str "includes") = true →
      getFilesToRebuild t changedFile =
        .error (.typeError
          (str "dependencyTracker.getDependentPages is not a function"))) ∧
    getFilesToRebuild DepTracker.empty (str "/s/includes/header.html") =
      .error (.typeError
        (str "dependencyTracker.getDependentPages is not a function")) := by
  constructor
  · intro t changedFile h1 h2
    unfold getFilesToRebuild
    rw [if_pos h1, if_pos h2]
  · rfl

theorem incremental_partial_rebuild_throws_witness :
    getFilesToRebuild DepTracker.empty (str "/s/includes/footer.html") =
      .error (.typeError
        (str "dependencyTracker.getDependentPages is not a function")) :=
  incremental_partial_rebuild_throws.1 DepTracker.empty
    (str "/s/includes/footer.html") (by rfl) (by rfl)

/-! ## Claim C9: the incremental asset branch
(`src/core/file-processor.js`, `incrementalBuild`) -/

/-- `isMarkdownFile(filePath)` (`src/core/markdown-processor.js`):
`/\.md$/i.test(filePath)`. -/
def isMarkdownFile (p : Str) : Bool :=
  decide ((str ".md") <:+ (p.map Char.toLower))

/-- What `incrementalBuild` does with one file of `filesToRebuild`. -/
inductive IncOutcome where
  | processedHtml
  | skippedHtmlPartial
  | processedMarkdown
  | copiedAsset
  | skippedAsset
  deriving Repr, DecidableEq

/-- The per-file dispatch of the `incrementalBuild` rebuild loop:
HTML pages are reprocessed (partials skipped), Markdown files are
reprocessed, and any other file is an asset, copied only when
`assets.isAssetReferenced(filePath) || !assetTracker` — `assets` being the
provided tracker or a fresh one (`assetTracker || new AssetTracker()`). -/
def incrementalFileAction (assetTracker : Option AssetTracker)
    (filePath : Str) : IncOutcome :=
  if isHtmlFile filePath = true then
    if isPartialFile filePath (str "includes") = false then .processedHtml
    else .skippedHtmlPartial
  else if isMarkdownFile filePath = true then .processedMarkdown
  else
    if isAssetReferenced (assetTracker.getD AssetTracker.new) filePath = true
        ∨ assetTracker = none then .copiedAsset
    else .skippedAsset

/-- C9 counterexample: with an asset tracker provided (as the watcher's
incremental rebuilds always do) and a changed asset that no page currently
references, the asset is skipped, not copied. -/
theorem incremental_asset_skip_counterexample :
    isHtmlFile (str "/s/img/logo.png") = false ∧
    isMarkdownFile (str "/s/img/logo.png") = false ∧
    incrementalFileAction (some AssetTracker.new) (str "/s/img/logo.png") =
      .skippedAsset :=
  ⟨rfl, rfl, rfl⟩

/-- C9 (amended): a changed non-content asset is copied unconditionally
only when no asset tracker was provided; when a tracker is provided the
copy is conditional on the recorded references — under the tracker
invariant, the asset is copied exactly when some page currently references
it, and skipped otherwise. -/
theorem incremental_asset_copy_conditional :
    (∀ f, isHtmlFile f = false → isMarkdownFile f = false →
      incrementalFileAction none f = .copiedAsset) ∧
    (∀ t f, isHtmlFile f = false → isMarkdownFile f = false → AssetInv t →
      incrementalFileAction (some t) f =
        (if getPagesThatReference t f ≠ [] then .copiedAsset
         else .skippedAsset)) := by
  constructor
  · intro f hh hm
    unfold incrementalFileAction
    rw [if_neg (show ¬ isHtmlFile f = true from by rw [hh]; intro h; cases h),
      if_neg (show ¬ isMarkdownFile f = true from by rw [hm]; intro h; cases h),
      if_pos (Or.inr rfl)]
  · intro t f hh hm hinv
    unfold incrementalFileAction
    rw [if_neg (show ¬ isHtmlFile f = true from by rw [hh]; intro h; cases h),
      if_neg (show ¬ isMarkdownFile f = true from by rw [hm]; intro h; cases h),
      show (some t).getD AssetTracker.new = t from rfl]
    by_cases hp : getPagesThatReference t f ≠ []
    · rw [if_pos hp, if_pos (Or.inl ((isAssetReferenced_iff_pages hinv f).mpr hp))]
    · rw [if_neg hp]
      refine if_neg ?_
      rintro (hb | hnone)
      · exact hp ((isAssetReferenced_iff_pages hinv f).mp hb)
      · cases hnone

theorem incremental_asset_copy_conditional_witness :
    incrementalFileAction
      (some (recordAssetReferences AssetTracker.new (str "/s/index.html")
        [str "/s/img/logo.png"])) (str "/s/img/logo.png") = .copiedAsset := by
  rw [incremental_asset_copy_conditional.2
    (recordAssetReferences AssetTracker.new (str "/s/index.html")
      [str "/s/img/logo.png"]) (str "/s/img/logo.png") rfl rfl
    ((assetInv_record AssetTracker.new (str "/s/index.html")
      [str "/s/img/logo.png"] assetInv_new).1)]
  rfl

end Dompile
